import Mathlib

/-!
Verification development for the agentic-bizflow conversion pipeline
(backend/app: services/text_splitter.py, services/role_inference.py,
services/entity_extractor.py, agent/reader.py, agent/planner.py,
agent/validator.py, agent/orchestrator.py).

Strings are modelled as `List Char` (`Str`); Python substring containment
(`in`), `str.find`, `str.strip`, `re.sub(r"\s+", " ", ...)` and
`str.split(sep)` are modelled by executable functions below.  The LLM
augmentation paths are disabled collaborators (reader/planner/generator
guard them behind `LLM_ENABLED`, default off), exactly as in the default
configuration of the code; the rule-based pipeline modelled here is the
code path taken when the LLM is off.
-/

namespace Bizflow

abbrev Str := List Char

/-- The Unicode whitespace characters stripped by Python `str.strip()` and
matched by `re`'s `\s` on `str` inputs (ASCII whitespace, NEL, NBSP, ogham
space, the U+2000 block, line/paragraph separators, narrow/math space and
the ideographic space U+3000). -/
def isSpace (c : Char) : Bool :=
  c = ' ' || c = '\t' || c = '\n' || c.toNat = 11 || c.toNat = 12 ||
  c = '\r' || c.toNat = 28 || c.toNat = 29 || c.toNat = 30 || c.toNat = 31 ||
  c.toNat = 0x85 || c.toNat = 0xa0 || c.toNat = 0x1680 ||
  (0x2000 ≤ c.toNat && c.toNat ≤ 0x200a) ||
  c.toNat = 0x2028 || c.toNat = 0x2029 || c.toNat = 0x202f ||
  c.toNat = 0x205f || c.toNat = 0x3000

/-- Python `str.strip()`: drop whitespace from both ends. -/
def pyStrip (s : Str) : Str :=
  ((s.dropWhile isSpace).reverse.dropWhile isSpace).reverse

/-- Python `re.sub(r"\s+", " ", s)`: replace every maximal whitespace run
by a single ASCII space. -/
def collapseWs : Str → Str
  | [] => []
  | [c] => if isSpace c then [' '] else [c]
  | a :: b :: rest =>
    if isSpace a && isSpace b then collapseWs (b :: rest)
    else (if isSpace a then ' ' else a) :: collapseWs (b :: rest)

/-- Python `s.find(pat)`: index of the leftmost occurrence of `pat` in `s`
(`none` for Python's `-1`). -/
def findSub (pat : Str) : Str → Option Nat
  | [] => if pat.isPrefixOf ([] : Str) then some 0 else none
  | c :: rest =>
    if pat.isPrefixOf (c :: rest) then some 0
    else (findSub pat rest).map (· + 1)

/-- Python `pat in s` (substring containment). -/
def isInfixB (pat s : Str) : Bool := (findSub pat s).isSome

/-- `_contains_any(text, keywords)` from text_splitter.py / validator.py:
true when some non-empty keyword occurs in `text`. -/
def containsAny (text : Str) (keywords : List Str) : Bool :=
  keywords.any fun kw => !kw.isEmpty && isInfixB kw text

/-- The `seen`-set loop of `_dedupe_keep_order` in text_splitter.py (also
`dict.fromkeys` in reader.py): elements already in `seen` are skipped. -/
def dedupeAux {α : Type} [DecidableEq α] (seen : List α) : List α → List α
  | [] => []
  | x :: xs => if x ∈ seen then dedupeAux seen xs else x :: dedupeAux (x :: seen) xs

/-- Order-preserving de-duplication: the first occurrence of each element
is kept. -/
def dedupeKeepOrder {α : Type} [DecidableEq α] (l : List α) : List α := dedupeAux [] l

/-- Python `fragment.split(sep)` for a non-empty separator, fuelled to make
the recursion structural; `fuel = fragment.length` always suffices because
every recursive call consumes at least one character. -/
def splitOnPatF (pat : Str) : Nat → Str → List Str
  | _, [] => [[]]
  | 0, s => [s]
  | fuel + 1, c :: rest =>
    if !pat.isEmpty && pat.isPrefixOf (c :: rest) then
      [] :: splitOnPatF pat fuel (rest.drop (pat.length - 1))
    else
      match splitOnPatF pat fuel rest with
      | [] => [[c]]
      | frag :: frags => (c :: frag) :: frags

def splitOnPat (pat s : Str) : List Str := splitOnPatF pat s.length s

/-- Python `min(list, key=lambda item: item[1])`: the first pair with
minimal second component. -/
def minByPos (l : List (Str × Nat)) : Option (Str × Nat) :=
  match l with
  | [] => none
  | x :: xs => some (xs.foldl (fun acc y => if y.2 < acc.2 then y else acc) x)

/-! ## text_splitter.py -/

def CONDITION_MARKERS : List Str := ["たら".toList, "なら".toList, "場合".toList, "後".toList, "次第".toList]

def NON_BUSINESS_KEYWORDS : List Str :=
  ["おはよう".toList, "こんにちは".toList, "こんばんは".toList, "お疲れ".toList,
   "ご苦労".toList, "失礼します".toList, "よろしく".toList, "天気".toList,
   "暑い".toList, "寒い".toList, "元気".toList, "調子".toList, "最近".toList,
   "良いですね".toList, "ですね".toList]

def BUSINESS_KEYWORDS : List Str :=
  ["申請".toList, "承認".toList, "精算".toList, "支払".toList, "請求".toList,
   "依頼".toList, "連絡".toList, "通知".toList, "報告".toList, "提出".toList,
   "作成".toList, "更新".toList, "確認".toList, "送付".toList, "共有".toList,
   "手配".toList, "渡して".toList, "渡す".toList, "対応".toList, "処理".toList]

def SEPARATORS : List Str :=
  ["。".toList, "、".toList, "そして".toList, "または".toList, "および".toList, "及び".toList]

/-- The per-fragment normalisation inside `split_actions`: collapse
whitespace, strip, drop empty and short fragments (space-free length
≤ 2), rewrite a trailing continuative "し" to "する". -/
def processFragment (frag : Str) : Option Str :=
  let normalized := pyStrip (collapseWs frag)
  if normalized.isEmpty then none
  else
    let compact := normalized.filter (· ≠ ' ')
    if compact.length ≤ 2 then none
    else
      let normalized' :=
        if normalized.getLast? = some 'し' && decide (2 < normalized.length) then
          normalized.dropLast ++ "する".toList
        else normalized
      some normalized'

/-- `split_actions` from text_splitter.py. -/
def split_actions (text : Str) : List Str :=
  let cleaned0 := pyStrip (text.map fun c => if c = '　' then ' ' else c)
  if cleaned0.isEmpty then []
  else
    let cleaned := collapseWs cleaned0
    let fragments := SEPARATORS.foldl (fun frags sep => frags.flatMap (splitOnPat sep)) [cleaned]
    dedupeKeepOrder (fragments.filterMap processFragment)

/-- The marker scan shared by `extract_trigger_phrase` and the literal
reading of the spec: leftmost conditional-marker occurrence, prefix up to
its end, extended over a following "に" for the markers 後/次第. -/
def triggerCore (cleaned : Str) : Str :=
  let markerPositions :=
    CONDITION_MARKERS.filterMap fun m => (findSub m cleaned).map fun p => (m, p)
  match minByPos markerPositions with
  | none => []
  | some (marker, pos) =>
    let endIndex := pos + marker.length
    let endIndex :=
      if (marker = "後".toList || marker = "次第".toList) &&
          decide (endIndex < cleaned.length) && cleaned.getD endIndex ' ' = 'に' then
        endIndex + 1
      else endIndex
    cleaned.take endIndex

/-- `extract_trigger_phrase` from text_splitter.py (strips the phrase
before scanning). -/
def extract_trigger_phrase (action : Str) : Str :=
  let cleaned := pyStrip action
  if cleaned.isEmpty then [] else triggerCore cleaned

/-- The literal wording of the claim about `extract_trigger`: positions and
prefixes are taken in the given phrase itself, with no stripping step. -/
def extractTriggerSpecLit (phrase : Str) : Str := triggerCore phrase

/-- The loop body of `filter_business_actions`: the phrase the iteration
appends, if any. -/
def bizDecide (action : Str) : Option Str :=
  let normalized := pyStrip action
  if normalized.isEmpty then none
  else
    let compact := normalized.filter (· ≠ ' ')
    let hasBusiness := containsAny normalized BUSINESS_KEYWORDS
    let hasNonBusiness := containsAny normalized NON_BUSINESS_KEYWORDS
    if hasBusiness then some normalized
    else if hasNonBusiness then none
    else if compact.length < 8 then none
    else some normalized

/-- `filter_business_actions` from text_splitter.py. -/
def filter_business_actions (actions : List Str) : List Str :=
  dedupeKeepOrder (actions.filterMap bizDecide)

/-- The keep/drop decision of `filter_business_actions` on an
already-stripped phrase: keep on a business keyword, else drop on a
non-business keyword, else drop when the space-free length is below 8. -/
def keepBusiness (p : Str) : Bool :=
  containsAny p BUSINESS_KEYWORDS ||
    (!containsAny p NON_BUSINESS_KEYWORDS && 8 ≤ (p.filter (· ≠ ' ')).length)

/-- The literal wording of the claim about `ActionClassifier.filter`: the
keep/drop decision applied to the raw phrase, with "whitespace-free
length" removing every whitespace character. -/
def keepBusinessSpecLit (p : Str) : Bool :=
  containsAny p BUSINESS_KEYWORDS ||
    (!containsAny p NON_BUSINESS_KEYWORDS && 8 ≤ (p.filter (fun c => !isSpace c)).length)

/-- The claim's literal reading of the whole filter: the order-preserving
deduplicated subsequence of kept phrases. -/
def filterBusinessSpecLit (actions : List Str) : List Str :=
  dedupeKeepOrder (actions.filter keepBusinessSpecLit)

/-! ## role_inference.py -/

def roleApplicant : Str := "Applicant".toList
def roleApprover : Str := "Approver".toList
def roleAccounting : Str := "Accounting".toList

def APPLICANT_KEYWORDS : List Str :=
  ["申請".toList, "申込み".toList, "提出".toList, "起票".toList, "入力".toList, "登録".toList]
def APPROVER_KEYWORDS : List Str :=
  ["承認".toList, "決裁".toList, "レビュー".toList, "差戻し".toList]
def ACCOUNTING_KEYWORDS : List Str :=
  ["精算".toList, "支払".toList, "請求".toList, "立替".toList, "経費処理".toList, "入金".toList, "仕訳".toList]
def CONTACT_KEYWORDS : List Str :=
  ["連絡".toList, "通知".toList, "共有".toList, "送付".toList, "伝えて".toList, "知らせて".toList]

def ROLE_PRIORITY : List Str := [roleApprover, roleAccounting, roleApplicant]

/-- The `matched` dictionary of `infer_roles_with_keywords`, keyed by the
three roles of `ROLE_KEYWORDS`. -/
structure RoleMatches where
  applicant : List Str
  approver : List Str
  accounting : List Str
  deriving DecidableEq, Repr

/-- `matched_keywords.get(role, [])`: lookup by role label with a default
of no keywords. -/
def RoleMatches.forRole (m : RoleMatches) (role : Str) : List Str :=
  if role = roleApplicant then m.applicant
  else if role = roleApprover then m.approver
  else if role = roleAccounting then m.accounting
  else []

/-- `infer_roles_with_keywords` from role_inference.py.  The contact-only
branch materialises `matched["Applicant"]` through a Python set union of
the empty role-keyword match list with the contact matches; since the
contact matches are distinct, the resulting set holds exactly the contact
keywords that occurred, modelled here in keyword-list order (Python set
iteration order is unspecified). -/
def infer_roles_with_keywords (action : Str) : List Str × RoleMatches :=
  let cleaned := pyStrip action
  let m : RoleMatches :=
    { applicant := APPLICANT_KEYWORDS.filter fun kw => isInfixB kw cleaned
      approver := APPROVER_KEYWORDS.filter fun kw => isInfixB kw cleaned
      accounting := ACCOUNTING_KEYWORDS.filter fun kw => isInfixB kw cleaned }
  let roles := ROLE_PRIORITY.filter fun role => !(m.forRole role).isEmpty
  let contactMatches := CONTACT_KEYWORDS.filter fun kw => isInfixB kw cleaned
  if roles.isEmpty && !contactMatches.isEmpty then
    ([roleApplicant], { m with applicant := contactMatches })
  else if roles.isEmpty then ([roleApplicant], m)
  else (roles, m)

/-- One entry of `build_role_definitions`. -/
structure RoleDef where
  name : Str
  responsibilities : List Str
  deriving DecidableEq, Repr

def ROLE_RESPONSIBILITIES (role : Str) : List Str :=
  if role = roleApplicant then ["Submit requests".toList, "Communicate results".toList]
  else if role = roleApprover then ["Approve or reject requests".toList]
  else if role = roleAccounting then ["Process reimbursements and accounting entries".toList]
  else ["Handle requests".toList]

/-- `build_role_definitions` from role_inference.py. -/
def build_role_definitions (roles : List Str) : List RoleDef :=
  (dedupeKeepOrder roles).map fun role =>
    { name := role, responsibilities := ROLE_RESPONSIBILITIES role }

/-! ## entity_extractor.py

`PERSON_PATTERN = ([一-龠々〆ヵヶぁ-んァ-ン]{1,10})さん`, applied with
`finditer` (leftmost, non-overlapping, greedy group). -/

def personClassChar (c : Char) : Bool :=
  (0x4e00 ≤ c.toNat && c.toNat ≤ 0x9fa0) || c = '々' || c = '〆' || c = 'ヵ' || c = 'ヶ' ||
  (0x3041 ≤ c.toNat && c.toNat ≤ 0x3093) || (0x30a1 ≤ c.toNat && c.toNat ≤ 0x30f3)

structure Person where
  name : Str
  surface : Str
  deriving DecidableEq, Repr

/-- The greedy group length at a fixed start: the largest `j ≤ bound` with
`j ≥ 1` such that position `j` is followed by "さん". -/
def bestGroupLen (s : Str) : Nat → Option Nat
  | 0 => none
  | j + 1 =>
    if "さん".toList.isPrefixOf (s.drop (j + 1)) then some (j + 1)
    else bestGroupLen s j

/-- One regex match attempt anchored at the head of `s`: the candidate
group is a run of person-class characters, capped at 10. -/
def personMatchAt (s : Str) : Option (Person × Str) :=
  let run := min (s.takeWhile personClassChar).length 10
  match bestGroupLen s run with
  | none => none
  | some j => some ({ name := s.take j, surface := s.take (j + 2) }, s.drop (j + 2))

/-- `finditer` scan (fuelled; a successful match consumes at least three
characters, so `fuel = s.length` suffices). -/
def findPeopleF : Nat → Str → List Person
  | _, [] => []
  | 0, _ => []
  | fuel + 1, c :: rest =>
    match personMatchAt (c :: rest) with
    | some (p, remaining) => p :: findPeopleF fuel remaining
    | none => findPeopleF fuel rest

/-- First occurrence wins on duplicate names (`seen_names` in the code). -/
def dedupePeopleAux (seen : List Str) : List Person → List Person
  | [] => []
  | p :: ps =>
    if p.name ∈ seen then dedupePeopleAux seen ps
    else p :: dedupePeopleAux (p.name :: seen) ps

/-- `extract_entities_ja` from entity_extractor.py, restricted to the
`people` field (orgs/amounts/dates are fixed empty stubs in the code). -/
def extract_entities_ja (text : Str) : List Person :=
  let cleaned := pyStrip text
  dedupePeopleAux [] (findPeopleF cleaned.length cleaned)

/-! ## schemas: the dictionary shapes exchanged between the stages.

Only the keys that the modelled code reads are carried; the generator's
free-text fields (messages, hints, meta/log summaries) are write-only
observability data in the code and are not modelled. -/

structure Recipient where
  name : Str
  surface : Str
  deriving DecidableEq, Repr

/-- A task dictionary as built by `PlannerAgent.run` and read by
`ValidatorAgent.run`.  Python falsiness of missing/empty strings is
modelled by the empty list. -/
structure Task where
  id : Str
  name : Str
  role : Str
  trigger : Str
  steps : List Str
  exception_handling : List Str
  notifications : List Str
  recipients : List Recipient
  deriving DecidableEq, Repr

structure PlannerOut where
  tasks : List Task
  roles : List RoleDef
  deriving DecidableEq, Repr

/-- The reader output dictionary, together with the keys the orchestrator
writes into it between retries (`retry_issues`, `force_task_split`,
`avoid_non_business`, absent keys modelled by their falsy defaults). -/
structure ReaderOut where
  entities_people : List Person
  actions : List Str
  actions_raw : List Str
  actions_filtered_out : List Str
  action_filter_fallback : Bool
  conditions : List Str
  input_text : Str
  retry_issues : List Str
  force_task_split : Bool
  avoid_non_business : Bool
  deriving DecidableEq, Repr

/-! ## reader.py (`ReaderAgent.run`, LLM augmentation off) -/

/-- `ReaderAgent.run`. -/
def readerRun (text : Str) : ReaderOut :=
  let cleaned := pyStrip text
  if cleaned.isEmpty then
    { entities_people := [], actions := [], actions_raw := [], actions_filtered_out := []
      action_filter_fallback := false, conditions := [], input_text := []
      retry_issues := [], force_task_split := false, avoid_non_business := false }
  else
    let actionsRaw := split_actions cleaned
    let actionsFiltered := filter_business_actions actionsRaw
    let actionsFilteredOut := actionsRaw.filter fun a => !actionsFiltered.contains a
    let fallback := actionsFiltered.isEmpty && !actionsRaw.isEmpty
    let actions := if actionsFiltered.isEmpty && !actionsRaw.isEmpty then actionsRaw else actionsFiltered
    let conditions := dedupeKeepOrder ((actions.map extract_trigger_phrase).filter (!·.isEmpty))
    { entities_people := extract_entities_ja cleaned
      actions := actions, actions_raw := actionsRaw
      actions_filtered_out := actionsFilteredOut
      action_filter_fallback := fallback
      conditions := conditions, input_text := cleaned
      retry_issues := [], force_task_split := false, avoid_non_business := false }

/-! ## planner.py (`PlannerAgent.run`, LLM refinement off) -/

/-- `str(n)` for the sequential task ids. -/
def natToStr (n : Nat) : Str := (toString n).toList

/-- `_expand_actions_for_roles` composed with `infer_roles_with_keywords`:
one `(role, task_action)` pair per inferred role, with the Approver task
rewritten to "<first matched keyword>する". -/
def expandAction (action : Str) : List (Str × Str) :=
  let (inferredRoles, matched) := infer_roles_with_keywords action
  let roles := if inferredRoles.isEmpty then [roleApplicant] else inferredRoles
  roles.map fun role =>
    let keywords := matched.forRole role
    let taskAction :=
      if role = roleApprover && !keywords.isEmpty then keywords.headD [] ++ "する".toList
      else action
    (role, taskAction)

/-- `_extract_recipients` from planner.py. -/
def extractRecipients (action : Str) (roleName : Str) (people : List Person) : List Recipient :=
  let hasContact := CONTACT_KEYWORDS.any fun kw => isInfixB kw action
  if !hasContact || roleName ≠ roleApplicant then []
  else
    (people.filter fun person =>
      (!person.surface.isEmpty && isInfixB person.surface action) ||
      (!person.name.isEmpty && isInfixB person.name action)).map
      fun person => { name := person.name, surface := person.surface }

/-- Python `s.replace(pat, "", 1)`: remove the leftmost occurrence. -/
def removeFirst (pat s : Str) : Str :=
  match findSub pat s with
  | none => s
  | some i => s.take i ++ s.drop (i + pat.length)

/-- `_force_split_actions` from planner.py. -/
def forceSplitActions (action : Str) (inputText : Str) : List Str :=
  let cleanedAction := pyStrip action
  let cleanedText := pyStrip inputText
  let candidates :=
    if !cleanedAction.isEmpty then [cleanedAction]
    else if !cleanedText.isEmpty then [cleanedText]
    else []
  let triggerPhrase :=
    match candidates with
    | [] => []
    | c :: _ => extract_trigger_phrase c
  let candidates :=
    match candidates with
    | [] => []
    | c :: _ =>
      if !triggerPhrase.isEmpty then
        let remainder := pyStrip (removeFirst triggerPhrase c)
        if !remainder.isEmpty && remainder ≠ c then [c, remainder] else candidates
      else candidates
  if candidates.isEmpty then ["Process request".toList] else candidates

/-- The effective action list of `PlannerAgent.run` after the
`avoid_non_business` re-filter and the `force_task_split` bisection. -/
def planActions (st : ReaderOut) : List Str :=
  let isRetry := !st.retry_issues.isEmpty
  let actions := st.actions
  let actionsRaw := if st.actions_raw.isEmpty then actions else st.actions_raw
  let avoidNonBusiness := st.avoid_non_business && isRetry
  let actions :=
    if avoidNonBusiness && !actionsRaw.isEmpty then filter_business_actions actionsRaw
    else actions
  if st.force_task_split && actions.length ≤ 1 then
    forceSplitActions (actions.headD []) st.input_text
  else actions

/-- One task of `PlannerAgent.run` (`task_index` is 1-based). -/
def mkTask (idx : Nat) (sourceAction roleName taskAction : Str) (people : List Person) : Task :=
  { id := "task_".toList ++ natToStr idx
    name := if taskAction.isEmpty then "Process request".toList else taskAction
    role := roleName
    trigger := extract_trigger_phrase taskAction
    steps := if taskAction.isEmpty then ["Review input".toList] else [taskAction]
    exception_handling := ["Escalate if data is missing".toList]
    notifications := ["Notify requester".toList]
    recipients := extractRecipients sourceAction roleName people }

/-- The default task emitted when no action at all is available. -/
def defaultTask : Task :=
  { id := "task_1".toList
    name := "Process request".toList
    role := roleApplicant
    trigger := extract_trigger_phrase []
    steps := ["Review input".toList, "Record outcome".toList]
    exception_handling := ["Escalate if data is missing".toList]
    notifications := ["Notify requester".toList]
    recipients := [] }

/-- `PlannerAgent.run`. -/
def plannerRun (st : ReaderOut) : PlannerOut :=
  let actions := planActions st
  let people := st.entities_people
  let tasks :=
    if actions.isEmpty then [defaultTask]
    else
      let expanded := actions.flatMap fun a => (expandAction a).map fun rt => (a, rt.1, rt.2)
      expanded.enum.map fun ie => mkTask (ie.1 + 1) ie.2.1 ie.2.2.1 ie.2.2.2 people
  { tasks := tasks, roles := build_role_definitions (tasks.map (·.role)) }

/-! ## validator.py (`ValidatorAgent.run`) -/

def COMPOUND_KEYWORDS : List Str :=
  ["たら".toList, "なら".toList, "場合".toList, "後".toList, "次第".toList,
   "そして".toList, "また".toList, "および".toList, "及び".toList]

def TRIGGER_MARKERS : List Str :=
  ["たら".toList, "なら".toList, "場合".toList, "後".toList, "次第".toList]

inductive Severity where
  | error
  | warning
  deriving DecidableEq, Repr

structure IssueDetail where
  code : Str
  severity : Severity
  deriving DecidableEq, Repr

structure ValidatorOut where
  issues : List Str
  issue_details : List IssueDetail
  open_questions : List Str
  compound_detected : Bool
  deriving DecidableEq, Repr

def codeNotificationWithoutRecipient : Str := "notification_without_recipient".toList
def codeNonBusinessTask : Str := "non_business_task_detected".toList
def codeRoleNotInferred : Str := "role_not_inferred".toList
def codeCompoundSingleTask : Str := "compound_text_single_task".toList
def codeSuspiciousGlobalTrigger : Str := "suspicious_global_trigger".toList

/-- `is_compound_text` from validator.py. -/
def is_compound_text (inputText : Str) (actions : List Str) : Bool :=
  if 2 ≤ actions.length then true
  else
    let cleaned := pyStrip inputText
    if cleaned.isEmpty then false
    else if isInfixB "、".toList cleaned || isInfixB "。".toList cleaned then true
    else COMPOUND_KEYWORDS.any fun kw => isInfixB kw cleaned

/-- `" ".join([name] + steps)`: the combined text the validator's per-task
keyword checks scan. -/
def taskCombined (t : Task) : Str := List.intercalate [' '] (t.name :: t.steps)

/-- `is_non_business_task` from validator.py. -/
def is_non_business_task (t : Task) : Bool :=
  containsAny (taskCombined t) NON_BUSINESS_KEYWORDS &&
    !containsAny (taskCombined t) BUSINESS_KEYWORDS

/-- `_task_requires_trigger` from validator.py. -/
def taskRequiresTrigger (t : Task) : Bool :=
  containsAny (taskCombined t) TRIGGER_MARKERS

/-- `_is_contact_task` from validator.py. -/
def isContactTask (t : Task) : Bool :=
  containsAny (taskCombined t) CONTACT_KEYWORDS

/-- `str(task.get("id") or "unknown_task")`. -/
def taskIdOf (t : Task) : Str := if t.id.isEmpty then "unknown_task".toList else t.id

/-- The issue strings appended by one iteration of the per-task loop of
`ValidatorAgent.run`, in append order. -/
def taskIssues (people : List Person) (t : Task) : List Str :=
  (if t.name.isEmpty then ["missing name in ".toList ++ taskIdOf t] else []) ++
  (if t.role.isEmpty then ["missing role in ".toList ++ taskIdOf t] else []) ++
  (if taskRequiresTrigger t && t.trigger.isEmpty then
    ["missing trigger in ".toList ++ taskIdOf t] else []) ++
  (if t.steps.isEmpty then ["missing steps in ".toList ++ taskIdOf t] else []) ++
  (if !people.isEmpty && isContactTask t && t.recipients.isEmpty then
    [codeNotificationWithoutRecipient] else [])

/-- The issue details appended by one iteration of the per-task loop. -/
def taskDetails (people : List Person) (t : Task) : List IssueDetail :=
  if !people.isEmpty && isContactTask t && t.recipients.isEmpty then
    [{ code := codeNotificationWithoutRecipient, severity := .warning }]
  else []

/-- The open questions appended by one iteration of the per-task loop. -/
def taskOpenQuestions (t : Task) : List Str :=
  if taskRequiresTrigger t && t.trigger.isEmpty then
    ["What triggers ".toList ++ taskIdOf t ++ "?".toList] else []

/-- `ValidatorAgent.run`.  The message/data payloads of issue details are
free observability text in the code and are not carried. -/
def validatorRun (p : PlannerOut) (inputText : Str) (actions : List Str)
    (actionsFilteredOut : List Str) (people : List Person) : ValidatorOut :=
  let tasks := p.tasks
  let tasksIssues :=
    if tasks.isEmpty then ["tasks missing".toList] else tasks.flatMap (taskIssues people)
  let tasksDetails :=
    if tasks.isEmpty then [] else tasks.flatMap (taskDetails people)
  let tasksOpenQuestions :=
    if tasks.isEmpty then ["What tasks are required?".toList]
    else tasks.flatMap taskOpenQuestions
  let roleNames :=
    if tasks.isEmpty then []
    else tasks.filterMap fun t => if t.role.isEmpty then none else some t.role
  let nonBusinessTasks :=
    if tasks.isEmpty then []
    else tasks.filterMap fun t => if is_non_business_task t then some (taskIdOf t) else none
  let roles := p.roles
  let rolesIssues :=
    if roles.isEmpty then ["roles missing".toList]
    else roles.filterMap fun r => if r.name.isEmpty then some "role name missing".toList else none
  let rolesOpenQuestions :=
    if roles.isEmpty then ["Who is responsible for each task?".toList]
    else roles.filterMap fun r =>
      if r.name.isEmpty then some "What are the role names?".toList else none
  let nonBusinessIssue := !nonBusinessTasks.isEmpty
  let roleNotInferred := 2 ≤ roleNames.length && (dedupeKeepOrder roleNames).length = 1
  let compoundDetected := is_compound_text inputText actions
  let compoundIssue :=
    compoundDetected && tasks.length = 1 &&
      (2 ≤ actions.length || actionsFilteredOut.length = 0)
  let nonEmptyTriggers := (tasks.map (·.trigger)).filter (!·.isEmpty)
  let suspiciousTrigger :=
    2 ≤ tasks.length && nonEmptyTriggers.length = tasks.length &&
      (dedupeKeepOrder nonEmptyTriggers).length = 1
  { issues :=
      tasksIssues ++ rolesIssues ++
      (if nonBusinessIssue then [codeNonBusinessTask] else []) ++
      (if roleNotInferred then [codeRoleNotInferred] else []) ++
      (if compoundIssue then [codeCompoundSingleTask] else []) ++
      (if suspiciousTrigger then [codeSuspiciousGlobalTrigger] else [])
    issue_details :=
      tasksDetails ++
      (if nonBusinessIssue then [{ code := codeNonBusinessTask, severity := .warning }] else []) ++
      (if roleNotInferred then [{ code := codeRoleNotInferred, severity := .warning }] else []) ++
      (if compoundIssue then [{ code := codeCompoundSingleTask, severity := .error }] else []) ++
      (if suspiciousTrigger then
        [{ code := codeSuspiciousGlobalTrigger, severity := .warning }] else [])
    open_questions := tasksOpenQuestions ++ rolesOpenQuestions
    compound_detected := compoundDetected }

/-! ## orchestrator.py (`Orchestrator.convert`) -/

/-- `warning_issue_codes`: the codes of the warning-severity issue
details (a Python set; only membership is used). -/
def warningCodes (v : ValidatorOut) : List Str :=
  (v.issue_details.filter fun d => d.severity = .warning).map (·.code)

/-- `blocking_issues` / `remaining`: the issues whose code is not tagged
as a warning. -/
def blockingOf (v : ValidatorOut) : List Str :=
  v.issues.filter fun issue => !(warningCodes v).contains issue

/-- The outcome of one Planner→Validator iteration of the retry loop,
carrying the planner and validator outputs of that iteration. -/
inductive StepRes where
  | accept (p : PlannerOut) (v : ValidatorOut)
  | retryNext (st : ReaderOut) (p : PlannerOut) (v : ValidatorOut)
  | failRes (p : PlannerOut) (v : ValidatorOut)
  deriving Repr

/-- The validator invocation of one loop iteration, with the arguments the
orchestrator passes (the actions captured from the reader output before
the loop, and `input_text or text`). -/
def stepValidator (text : Str) (st : ReaderOut) : ValidatorOut :=
  validatorRun (plannerRun st)
    (if st.input_text.isEmpty then text else st.input_text)
    st.actions st.actions_filtered_out st.entities_people

/-- One iteration of the `while True` body of `Orchestrator.convert`:
retry bookkeeping, warnings-only acceptance, and the exhausted-retries
failure check. -/
def orchStep (maxRetries : Nat) (text : Str) (st : ReaderOut) (retries : Nat) : StepRes :=
  let p := plannerRun st
  let v := stepValidator text st
  let issues := v.issues
  let blocking := blockingOf v
  let onlyWarnings := !issues.isEmpty && blocking.isEmpty
  if !issues.isEmpty && retries < maxRetries then
    if onlyWarnings && 1 ≤ retries then
      .accept p { v with issues := [] }
    else
      .retryNext
        { st with
          retry_issues := issues
          force_task_split := st.force_task_split || issues.contains codeCompoundSingleTask
          avoid_non_business := st.avoid_non_business || issues.contains codeNonBusinessTask }
        p v
  else if !blocking.isEmpty then .failRes p v
  else .accept p v

/-- The loop unrolled with fuel; `fuel = maxRetries + 1` always suffices
because every `retryNext` increments `retries` and requires
`retries < maxRetries`. -/
inductive LoopOut where
  | done (st : ReaderOut) (p : PlannerOut) (v : ValidatorOut) (retries : Nat)
  | failed (st : ReaderOut) (p : PlannerOut) (v : ValidatorOut) (retries : Nat)
  deriving Repr

def loopFull (maxRetries : Nat) (text : Str) : Nat → ReaderOut → Nat → LoopOut
  | 0, st, retries =>
    match orchStep maxRetries text st retries with
    | .accept p v => .done st p v retries
    | .failRes p v => .failed st p v retries
    | .retryNext _ p v => .failed st p v retries
  | fuel + 1, st, retries =>
    match orchStep maxRetries text st retries with
    | .accept p v => .done st p v retries
    | .failRes p v => .failed st p v retries
    | .retryNext st' _ _ => loopFull maxRetries text fuel st' (retries + 1)

/-- The argument record of the single `GeneratorAgent.run` invocation:
`convert` calls the generator exactly once, after validation passes.  The
generator itself is a collaborator outside the retry loop (it builds the
final `BusinessDefinition` from these inputs). -/
structure GeneratorCall where
  text : Str
  reader : ReaderOut
  planner : PlannerOut
  validator : ValidatorOut
  deriving Repr

/-- `Orchestrator.convert`: either the `ValueError` payload (the issue
codes remaining after retries that are not tolerated warnings) or the
generator invocation that produces the returned definition. -/
def convert (maxRetries : Nat) (text : Str) : Except (List Str) GeneratorCall :=
  let st0 := readerRun text
  match loopFull maxRetries text (maxRetries + 1) st0 0 with
  | .done st p v _ => .ok { text := text, reader := st, planner := p, validator := v }
  | .failed _ _ v _ => .error (blockingOf v)

/-! ## Spec-side definitions used to state the claims -/

/-- The role-keyword match lists, as the claim describes them: for each
role, the keywords of its table that occur in the action phrase (the code
scans the stripped phrase; role keywords contain no whitespace, so the
occurrences coincide). -/
def matchedRoleKeywords (action : Str) : RoleMatches :=
  { applicant := APPLICANT_KEYWORDS.filter fun kw => isInfixB kw (pyStrip action)
    approver := APPROVER_KEYWORDS.filter fun kw => isInfixB kw (pyStrip action)
    accounting := ACCOUNTING_KEYWORDS.filter fun kw => isInfixB kw (pyStrip action) }

/-- The roles with at least one matched keyword, in the fixed priority
order Approver, Accounting, Applicant. -/
def rolePrioOf (action : Str) : List Str :=
  ROLE_PRIORITY.filter fun role => !((matchedRoleKeywords action).forRole role).isEmpty

/-- The contact/notification keywords occurring in the action phrase. -/
def contactMatchesOf (action : Str) : List Str :=
  CONTACT_KEYWORDS.filter fun kw => isInfixB kw (pyStrip action)

/-- Whitespace discipline predicates for the idempotence argument:
every whitespace character is a plain ASCII space. -/
def onlyPlainSpaces (s : Str) : Prop := ∀ c ∈ s, isSpace c = true → c = ' '

/-- No two adjacent whitespace characters. -/
def noTwoSpaces : Str → Bool
  | [] => true
  | [_] => true
  | a :: b :: rest => !(isSpace a && isSpace b) && noTwoSpaces (b :: rest)

/-- The head, when present, is not whitespace. -/
def frontOk (s : Str) : Prop := ∀ c, s.head? = some c → isSpace c = false

/-- The last element, when present, is not whitespace. -/
def backOk (s : Str) : Prop := ∀ c, s.getLast? = some c → isSpace c = false

/-- A concrete reader state whose Planner→Validator round yields exactly
the warning `role_not_inferred` (two Applicant tasks): used to exhibit the
warnings-only retry behaviour on concrete data. -/
def warningsOnlyState : ReaderOut :=
  { entities_people := []
    actions := ["申請する".toList, "登録する".toList]
    actions_raw := ["申請する".toList, "登録する".toList]
    actions_filtered_out := []
    action_filter_fallback := false
    conditions := []
    input_text := "申請する".toList
    retry_issues := []
    force_task_split := false
    avoid_non_business := false }

/-- A reader state with one conditional compound action, used to exhibit
concrete planner tasks whose text contains a trigger marker. -/
def conditionalState : ReaderOut :=
  { warningsOnlyState with
    actions := ["承認されたら精算する".toList]
    actions_raw := ["承認されたら精算する".toList] }

/-- The second task the planner builds from `conditionalState` (the
Accounting task carrying the conditional clause). -/
def conditionalTask : Task := ((plannerRun conditionalState).tasks.getD 1 defaultTask)

end Bizflow

open Bizflow in
example : infer_roles_with_keywords "経費を申請する".toList =
    (["Applicant".toList], ⟨["申請".toList], [], []⟩) := by decide

open Bizflow in
example : infer_roles_with_keywords "承認されたら精算する".toList =
    (["Approver".toList, "Accounting".toList], ⟨[], ["承認".toList], ["精算".toList]⟩) := by decide

open Bizflow in
example : infer_roles_with_keywords "鈴木さんに連絡する".toList =
    (["Applicant".toList], ⟨["連絡".toList], [], []⟩) := by decide

open Bizflow in
example : extract_entities_ja "鈴木さんに連絡し、田中さんへ渡す".toList =
    [⟨"鈴木".toList, "鈴木さん".toList⟩, ⟨"田中".toList, "田中さん".toList⟩] := by decide

open Bizflow in
example : split_actions "経費を申請し、承認されたら精算し、通知する".toList =
    ["経費を申請する".toList, "承認されたら精算する".toList, "通知する".toList] := by decide

open Bizflow in
example : extract_trigger_phrase "承認されたら精算する".toList = "承認されたら".toList := by decide

open Bizflow in
example : extract_trigger_phrase "入金後に対応する".toList = "入金後に".toList := by decide

open Bizflow in
example : filter_business_actions ["おはようございます".toList, "経費を申請する".toList] =
    ["経費を申請する".toList] := by decide

namespace Bizflow

/-! ## Basic lemmas about the string primitives -/

theorem findSub_nil (pat : Str) (h : pat ≠ []) : findSub pat [] = none := by
  cases pat with
  | nil => exact absurd rfl h
  | cons c l => simp [findSub, List.isPrefixOf]

theorem findSub_cons (pat : Str) (c : Char) (rest : Str) :
    findSub pat (c :: rest) =
      if pat.isPrefixOf (c :: rest) then some 0 else (findSub pat rest).map (· + 1) := rfl

theorem isInfixB_iff (pat s : Str) : isInfixB pat s = true ↔ pat <:+: s := by
  induction s with
  | nil =>
    cases pat with
    | nil => simp [isInfixB, findSub, List.isPrefixOf]
    | cons c l => simp [isInfixB, findSub, List.isPrefixOf]
  | cons c rest ih =>
    rw [List.infix_cons_iff, ← ih]
    rw [isInfixB, findSub_cons]
    by_cases h : pat.isPrefixOf (c :: rest)
    · simp [h, List.isPrefixOf_iff_prefix.mp h]
    · have h2 : ¬ pat <+: c :: rest := fun hc => h (List.isPrefixOf_iff_prefix.mpr hc)
      simp [h, h2, isInfixB]

theorem isInfixB_false_iff (pat s : Str) : isInfixB pat s = false ↔ ¬ pat <:+: s := by
  rw [← isInfixB_iff]
  cases isInfixB pat s <;> simp

theorem infix_cons_elim (pat s : Str) (c : Char) (hne : pat ≠ [])
    (hc : ∀ d ∈ pat, d ≠ c) (h : pat <:+: c :: s) : pat <:+: s := by
  rcases List.infix_cons_iff.mp h with hp | hi
  · cases pat with
    | nil => exact absurd rfl hne
    | cons a l =>
      rcases List.cons_prefix_cons.mp hp with ⟨hac, -⟩
      exact absurd hac (hc a (by simp))
  · exact hi

theorem infix_append_left_elim (pat l r : Str) (hne : pat ≠ [])
    (hl : ∀ c ∈ l, ∀ d ∈ pat, d ≠ c) (h : pat <:+: l ++ r) : pat <:+: r := by
  induction l with
  | nil => rwa [List.nil_append] at h
  | cons x l ih =>
    have h1 : pat <:+: l ++ r :=
      infix_cons_elim pat (l ++ r) x hne (fun d hd => hl x (by simp) d hd) (by simpa using h)
    exact ih (fun c hc d hd => hl c (by simp [hc]) d hd) h1

theorem infix_rev_iff (pat s : Str) : pat <:+: s ↔ pat.reverse <:+: s.reverse :=
  Iff.symm List.reverse_infix

theorem pyStrip_components (s : Str) :
    ∃ l r : Str, s = l ++ pyStrip s ++ r ∧
      (∀ c ∈ l, isSpace c = true) ∧ (∀ c ∈ r, isSpace c = true) := by
  have h2 : (s.dropWhile isSpace).reverse =
      (s.dropWhile isSpace).reverse.takeWhile isSpace ++
        (s.dropWhile isSpace).reverse.dropWhile isSpace :=
    (List.takeWhile_append_dropWhile isSpace _).symm
  have h3 := congrArg List.reverse h2
  rw [List.reverse_reverse, List.reverse_append] at h3
  refine ⟨s.takeWhile isSpace, ((s.dropWhile isSpace).reverse.takeWhile isSpace).reverse,
    ?_, ?_, ?_⟩
  · calc s = s.takeWhile isSpace ++ s.dropWhile isSpace :=
          (List.takeWhile_append_dropWhile isSpace s).symm
      _ = s.takeWhile isSpace ++
            (((s.dropWhile isSpace).reverse.dropWhile isSpace).reverse ++
              ((s.dropWhile isSpace).reverse.takeWhile isSpace).reverse) := by rw [← h3]
      _ = s.takeWhile isSpace ++ pyStrip s ++
            ((s.dropWhile isSpace).reverse.takeWhile isSpace).reverse := by
          rw [pyStrip, List.append_assoc]
  · intro c hc
    exact List.mem_takeWhile_imp hc
  · intro c hc
    rw [List.mem_reverse] at hc
    exact List.mem_takeWhile_imp hc

theorem pyStrip_isInfix (s : Str) : pyStrip s <:+: s := by
  obtain ⟨l, r, hs, -, -⟩ := pyStrip_components s
  exact ⟨l, r, hs.symm⟩

/-- Occurrences of a whitespace-free non-empty pattern are unaffected by
stripping. -/
theorem infix_pyStrip_iff (pat s : Str) (hne : pat ≠ [])
    (hns : ∀ c ∈ pat, isSpace c = false) : pat <:+: pyStrip s ↔ pat <:+: s := by
  constructor
  · intro h
    exact h.trans (pyStrip_isInfix s)
  · intro h
    obtain ⟨l, r, hs, hl, hr⟩ := pyStrip_components s
    rw [hs] at h
    have hchar : ∀ c ∈ l ++ (pyStrip s ++ r), isSpace c = true → ∀ d ∈ pat, d ≠ c := by
      intro c _ hcsp d hd he
      rw [he] at hd
      exact absurd (hns c hd) (by simp [hcsp])
    have h1 : pat <:+: pyStrip s ++ r := by
      refine infix_append_left_elim pat l (pyStrip s ++ r) hne ?_ (by simpa using h)
      intro c hc d hd
      exact hchar c (by simp [hc]) (hl c hc) d hd
    rw [infix_rev_iff, List.reverse_append] at h1
    have h2 : pat.reverse <:+: (pyStrip s).reverse := by
      refine infix_append_left_elim pat.reverse r.reverse (pyStrip s).reverse
        (by simpa using hne) ?_ h1
      intro c hc d hd
      rw [List.mem_reverse] at hc hd
      intro he
      rw [he] at hd
      exact absurd (hns c hd) (by simp [hr c hc])
    rwa [← infix_rev_iff] at h2

theorem containsAny_iff (text : Str) (kws : List Str) :
    containsAny text kws = true ↔ ∃ kw ∈ kws, kw ≠ [] ∧ kw <:+: text := by
  unfold containsAny
  rw [List.any_eq_true]
  constructor
  · rintro ⟨kw, hmem, hkw⟩
    rw [Bool.and_eq_true] at hkw
    exact ⟨kw, hmem, by simpa using hkw.1, (isInfixB_iff kw text).mp hkw.2⟩
  · rintro ⟨kw, hmem, hne, hinf⟩
    exact ⟨kw, hmem, by simp [hne, (isInfixB_iff kw text).mpr hinf]⟩

theorem mem_dedupeAux {α : Type} [DecidableEq α] (seen l : List α) (x : α)
    (h : x ∈ dedupeAux seen l) : x ∈ l := by
  induction l generalizing seen with
  | nil => simp [dedupeAux] at h
  | cons a l ih =>
    unfold dedupeAux at h
    by_cases ha : a ∈ seen
    · simp only [if_pos ha] at h
      exact List.mem_cons_of_mem a (ih _ h)
    · simp only [if_neg ha] at h
      rcases List.mem_cons.mp h with h1 | h2
      · rw [h1]
        exact List.mem_cons_self a l
      · exact List.mem_cons_of_mem a (ih _ h2)

theorem mem_dedupeKeepOrder {α : Type} [DecidableEq α] (l : List α) (x : α)
    (h : x ∈ dedupeKeepOrder l) : x ∈ l := mem_dedupeAux [] l x h

end Bizflow

namespace Bizflow

/-! ## Pointwise characterisation of the business filter -/

theorem bizDecide_eq (action : Str) :
    bizDecide action = if keepBusiness (pyStrip action) then some (pyStrip action) else none := by
  unfold bizDecide keepBusiness
  by_cases h0 : (pyStrip action).isEmpty
  · rw [List.isEmpty_iff] at h0
    rw [h0]
    decide
  · rw [if_neg h0]
    by_cases hB : containsAny (pyStrip action) BUSINESS_KEYWORDS = true
    · simp [hB]
    · rw [Bool.not_eq_true] at hB
      by_cases hN : containsAny (pyStrip action) NON_BUSINESS_KEYWORDS = true
      · simp [hB, hN]
      · rw [Bool.not_eq_true] at hN
        simp only [hB, hN, Bool.false_eq_true, if_false, Bool.false_or, Bool.not_false,
          Bool.true_and, decide_eq_true_eq]
        split_ifs with h1 h2 <;> first | rfl | omega

theorem filterMap_bizDecide (actions : List Str) :
    actions.filterMap bizDecide = (actions.map pyStrip).filter keepBusiness := by
  induction actions with
  | nil => rfl
  | cons a l ih =>
    rw [List.filterMap_cons, List.map_cons, List.filter_cons, bizDecide_eq]
    by_cases hk : keepBusiness (pyStrip a) = true
    · rw [if_pos hk, hk, ih]
      simp
    · rw [Bool.not_eq_true] at hk
      rw [hk, ih]
      simp

/-- C7 (corrected).  The amended claim: `ActionClassifier.filter` strips
every candidate phrase of surrounding whitespace, then keeps the stripped
phrase when it contains a business keyword (even when a non-business
keyword is also present), otherwise drops it when it contains a
non-business keyword, otherwise drops it when its space-free length is
strictly below 8, and otherwise keeps it; the output is the
order-preserving de-duplication of the stripped kept phrases. -/
theorem c7_filter_business (actions : List Str) :
    filter_business_actions actions =
      dedupeKeepOrder ((actions.map pyStrip).filter keepBusiness) := by
  unfold filter_business_actions
  rw [filterMap_bizDecide]

/-- C7 counterexample: the claim as stated (the keep/drop tiers applied to
the raw phrases, output a subsequence of those phrases) fails on a phrase
with leading whitespace — the code emits the stripped phrase instead. -/
theorem c7_counterexample :
    filter_business_actions [" 申請".toList] = ["申請".toList] ∧
    filterBusinessSpecLit [" 申請".toList] = [" 申請".toList] ∧
    filter_business_actions [" 申請".toList] ≠ filterBusinessSpecLit [" 申請".toList] := by
  refine ⟨by decide, by decide, by decide⟩

/-- C6 (corrected).  The amended claim: `extract_trigger` first strips the
phrase of surrounding whitespace and then returns the prefix of the
stripped phrase through the end of the leftmost conditional-marker
occurrence (extended by one character when that character is に and the
marker is 後 or 次第); the empty string when no marker occurs. -/
theorem c6_extract_trigger (p : Str) :
    extract_trigger_phrase p = extractTriggerSpecLit (pyStrip p) := by
  unfold extract_trigger_phrase extractTriggerSpecLit
  by_cases h : (pyStrip p).isEmpty
  · rw [if_pos h]
    rw [List.isEmpty_iff] at h
    rw [h]
    decide
  · rw [if_neg h]

/-- C6 counterexample: on a phrase with leading whitespace the code
returns the prefix of the stripped phrase, not of the phrase itself. -/
theorem c6_counterexample :
    extract_trigger_phrase (" 後に".toList) = "後に".toList ∧
    extractTriggerSpecLit (" 後に".toList) = " 後に".toList ∧
    extract_trigger_phrase (" 後に".toList) ≠ extractTriggerSpecLit (" 後に".toList) := by
  refine ⟨by decide, by decide, by decide⟩

end Bizflow

namespace Bizflow

/-! ## C3: reader fallback invariant -/

/-- C3 (confirmed).  For every input text the reader's extraction record
satisfies: `actions` is non-empty whenever `actions_raw` is non-empty, and
the fallback flag is set exactly when business-filtering emptied the
candidate list while `actions_raw` was non-empty, in which case `actions`
equals `actions_raw`. -/
theorem c3_reader_fallback (text : Str) :
    (1 ≤ (readerRun text).actions_raw.length → 1 ≤ (readerRun text).actions.length) ∧
    ((readerRun text).action_filter_fallback = true ↔
      (filter_business_actions (readerRun text).actions_raw = [] ∧
        (readerRun text).actions_raw ≠ [])) ∧
    ((readerRun text).action_filter_fallback = true →
      (readerRun text).actions = (readerRun text).actions_raw) := by
  unfold readerRun
  by_cases h : (pyStrip text).isEmpty
  · simp [h]
  · simp only [if_neg h]
    cases hF : (filter_business_actions (split_actions (pyStrip text))).isEmpty with
    | true =>
      rw [List.isEmpty_iff] at hF
      cases hA : split_actions (pyStrip text) with
      | nil => simp [hF, hA]
      | cons a l =>
        rw [hA] at hF
        simp [hF, hA]
    | false =>
      have hF2 : filter_business_actions (split_actions (pyStrip text)) ≠ [] := by
        intro hc
        rw [hc] at hF
        simp at hF
      have hlen : 1 ≤ (filter_business_actions (split_actions (pyStrip text))).length :=
        List.length_pos.mpr hF2
      simp [hF, hF2, hlen]

end Bizflow

namespace Bizflow

/-! ## C5: role inference -/

theorem forRole_applicant (m : RoleMatches) : m.forRole roleApplicant = m.applicant := rfl

theorem forRole_approver (m : RoleMatches) : m.forRole roleApprover = m.approver := by
  unfold RoleMatches.forRole
  rw [if_neg (by decide), if_pos rfl]

theorem forRole_accounting (m : RoleMatches) : m.forRole roleAccounting = m.accounting := by
  unfold RoleMatches.forRole
  rw [if_neg (by decide), if_neg (by decide), if_pos rfl]

/-- C5 (confirmed).  `RoleInferencer.infer` always returns a non-empty
role list: the roles with a matched keyword in the fixed priority order
Approver, Accounting, Applicant when any role keyword matched; the
solitary Applicant carrying the contact-keyword matches when only a
contact/notification keyword occurred; and the solitary Applicant with no
matched keywords when nothing matched. -/
theorem c5_infer_roles (action : Str) :
    (infer_roles_with_keywords action).1 ≠ [] ∧
    (rolePrioOf action ≠ [] →
      infer_roles_with_keywords action = (rolePrioOf action, matchedRoleKeywords action)) ∧
    (rolePrioOf action = [] → contactMatchesOf action ≠ [] →
      infer_roles_with_keywords action =
        ([roleApplicant],
          { matchedRoleKeywords action with applicant := contactMatchesOf action })) ∧
    (rolePrioOf action = [] → contactMatchesOf action = [] →
      infer_roles_with_keywords action = ([roleApplicant], ⟨[], [], []⟩)) := by
  have hm : infer_roles_with_keywords action =
      (let roles := rolePrioOf action
       let contactMatches := contactMatchesOf action
       if roles.isEmpty && !contactMatches.isEmpty then
         ([roleApplicant], { matchedRoleKeywords action with applicant := contactMatches })
       else if roles.isEmpty then ([roleApplicant], matchedRoleKeywords action)
       else (roles, matchedRoleKeywords action)) := rfl
  rw [hm]
  by_cases hp : rolePrioOf action = []
  · have hempty : (matchedRoleKeywords action) = (⟨[], [], []⟩ : RoleMatches) := by
      have h3 := List.filter_eq_nil_iff.mp hp
      have ha : ((matchedRoleKeywords action).forRole roleApprover).isEmpty = true := by
        have := h3 roleApprover (by simp [ROLE_PRIORITY])
        simpa using this
      have hb : ((matchedRoleKeywords action).forRole roleAccounting).isEmpty = true := by
        have := h3 roleAccounting (by simp [ROLE_PRIORITY])
        simpa using this
      have hc : ((matchedRoleKeywords action).forRole roleApplicant).isEmpty = true := by
        have := h3 roleApplicant (by simp [ROLE_PRIORITY])
        simpa using this
      rw [forRole_approver, List.isEmpty_iff] at ha
      rw [forRole_accounting, List.isEmpty_iff] at hb
      rw [forRole_applicant, List.isEmpty_iff] at hc
      cases hmm : matchedRoleKeywords action
      rw [hmm] at ha hb hc
      simp at ha hb hc
      simp [ha, hb, hc]
    by_cases hcm : contactMatchesOf action = []
    · simp [hp, hcm, hempty]
    · have : contactMatchesOf action ≠ [] := hcm
      simp [hp, hcm, this]
  · simp [hp]

end Bizflow

namespace Bizflow

/-- C3 witness: on the greeting-only input the business filter drops the
single raw action, the fallback restores it, and `actions` is non-empty. -/
theorem c3_witness :
    (readerRun "こんにちは皆さん".toList).action_filter_fallback = true ∧
    (readerRun "こんにちは皆さん".toList).actions =
      (readerRun "こんにちは皆さん".toList).actions_raw ∧
    1 ≤ (readerRun "こんにちは皆さん".toList).actions.length :=
  ⟨by decide, (c3_reader_fallback ("こんにちは皆さん".toList)).2.2 (by decide),
    (c3_reader_fallback ("こんにちは皆さん".toList)).1 (by decide)⟩

/-- C5 witness: a phrase matching both an Approver and an Accounting
keyword yields exactly those two roles in priority order. -/
theorem c5_witness :
    infer_roles_with_keywords "承認されたら精算する".toList =
      (["Approver".toList, "Accounting".toList],
        ⟨[], ["承認".toList], ["精算".toList]⟩) := by
  have h := (c5_infer_roles ("承認されたら精算する".toList)).2.1 (by decide)
  rw [h]
  decide

end Bizflow

namespace Bizflow

/-! ## C4: the compound-text-single-task issue -/

theorem mem_if_singleton {α : Type} (x y : α) (c : Prop) [Decidable c]
    (h : x ∈ (if c then [y] else [])) : c ∧ x = y := by
  split at h <;> simp_all

theorem ne_target_of_head (pre suffix target : Str) (c d : Char)
    (h1 : pre.head? = some c) (h2 : target.head? = some d) (hcd : c ≠ d) :
    pre ++ suffix ≠ target := by
  intro he
  cases pre with
  | nil => simp at h1
  | cons a l =>
    cases target with
    | nil => simp at h2
    | cons b m =>
      simp only [List.head?_cons, Option.some_inj] at h1 h2
      rw [List.cons_append] at he
      injection he with h3 _
      exact hcd (h1 ▸ h2 ▸ h3)

theorem compound_notin_taskIssues (people : List Person) (t : Task) :
    codeCompoundSingleTask ∉ taskIssues people t := by
  intro h
  unfold taskIssues at h
  simp only [List.mem_append] at h
  have hn := ne_target_of_head "missing name in ".toList (taskIdOf t)
    codeCompoundSingleTask 'm' 'c' (by decide) (by decide) (by decide)
  have hr := ne_target_of_head "missing role in ".toList (taskIdOf t)
    codeCompoundSingleTask 'm' 'c' (by decide) (by decide) (by decide)
  have ht := ne_target_of_head "missing trigger in ".toList (taskIdOf t)
    codeCompoundSingleTask 'm' 'c' (by decide) (by decide) (by decide)
  have hs := ne_target_of_head "missing steps in ".toList (taskIdOf t)
    codeCompoundSingleTask 'm' 'c' (by decide) (by decide) (by decide)
  rcases h with ((((h | h) | h) | h) | h)
  · exact hn (mem_if_singleton _ _ _ h).2.symm
  · exact hr (mem_if_singleton _ _ _ h).2.symm
  · exact ht (mem_if_singleton _ _ _ h).2.symm
  · exact hs (mem_if_singleton _ _ _ h).2.symm
  · have := (mem_if_singleton _ _ _ h).2
    exact absurd this (by decide)

/-- C4 (confirmed, reading "raw actions" as the action list handed to the
validator).  The validator emits `compound_text_single_task` exactly when
the input looks compound, the planner produced exactly one task, and
either at least two actions were extracted or nothing was filtered out. -/
theorem c4_compound_issue (p : PlannerOut) (inputText : Str)
    (actions actionsFilteredOut : List Str) (people : List Person) :
    codeCompoundSingleTask ∈
        (validatorRun p inputText actions actionsFilteredOut people).issues ↔
      (is_compound_text inputText actions = true ∧ p.tasks.length = 1 ∧
        (2 ≤ actions.length ∨ actionsFilteredOut.length = 0)) := by
  unfold validatorRun
  dsimp only
  simp only [List.mem_append]
  constructor
  · rintro (((((h | h) | h) | h) | h) | h)
    · exfalso
      revert h
      split
      · intro h
        have := (List.mem_singleton).mp h
        exact absurd this (by decide)
      · intro h
        rcases List.mem_flatMap.mp h with ⟨t, -, hmem⟩
        exact compound_notin_taskIssues people t hmem
    · exfalso
      revert h
      split
      · intro h
        have := (List.mem_singleton).mp h
        exact absurd this (by decide)
      · intro h
        rcases List.mem_filterMap.mp h with ⟨r, -, hr⟩
        revert hr
        split
        · intro hr
          injection hr with hr
          exact absurd hr.symm (by decide)
        · intro hr
          exact Option.noConfusion hr
    · exact absurd (mem_if_singleton _ _ _ h).2 (by decide)
    · exact absurd (mem_if_singleton _ _ _ h).2 (by decide)
    · have hc := (mem_if_singleton _ _ _ h).1
      simp only [Bool.and_eq_true, Bool.or_eq_true, decide_eq_true_eq] at hc
      exact ⟨hc.1.1, hc.1.2, hc.2⟩
    · exact absurd (mem_if_singleton _ _ _ h).2 (by decide)
  · intro hc
    refine Or.inl (Or.inr ?_)
    rw [if_pos]
    · exact List.mem_singleton.mpr rfl
    · simp only [Bool.and_eq_true, Bool.or_eq_true, decide_eq_true_eq]
      exact ⟨⟨hc.1, hc.2.1⟩, hc.2.2⟩

/-- C4 witness: a compound sentence planned into a single task with no
filtered-out candidate raises the error; with two actions it does not. -/
theorem c4_witness :
    codeCompoundSingleTask ∈
      (validatorRun (plannerRun { warningsOnlyState with
          actions := ["連絡したら渡す相手に知らせる".toList],
          actions_raw := ["連絡したら渡す相手に知らせる".toList] })
        "連絡したら渡す相手に知らせる".toList
        ["連絡したら渡す相手に知らせる".toList] [] []).issues :=
  (c4_compound_issue _ _ _ _ _).mpr (by refine ⟨by decide, by decide, Or.inr (by decide)⟩)

end Bizflow

namespace Bizflow

/-! ## C9: the planner always emits tasks with steps -/

theorem expandAction_ne_nil (a : Str) : expandAction a ≠ [] := by
  unfold expandAction
  rcases hinf : infer_roles_with_keywords a with ⟨r0, m0⟩
  dsimp only
  by_cases h : r0.isEmpty
  · simp [h]
  · rw [Bool.not_eq_true] at h
    simp only [h, Bool.false_eq_true, if_false]
    intro hc
    rw [List.map_eq_nil_iff] at hc
    rw [hc] at h
    simp at h

/-- C9 (confirmed).  `PlannerStage.run` never returns an empty task list;
with zero (post-adjustment) actions it emits exactly the single default
Applicant task; and every emitted task has a non-empty steps list. -/
theorem c9_planner_tasks (st : ReaderOut) :
    (plannerRun st).tasks ≠ [] ∧
    (∀ t ∈ (plannerRun st).tasks, t.steps ≠ []) ∧
    (planActions st = [] → (plannerRun st).tasks = [defaultTask]) := by
  unfold plannerRun
  dsimp only
  by_cases h : (planActions st).isEmpty
  · have h2 := List.isEmpty_iff.mp h
    refine ⟨by simp [h], ?_, by simp [h]⟩
    intro t ht
    rw [if_pos h] at ht
    rw [List.mem_singleton] at ht
    rw [ht]
    decide
  · have h2 : planActions st ≠ [] := fun hc => by simp [hc] at h
    rw [Bool.not_eq_true] at h
    refine ⟨?_, ?_, fun hc => absurd hc h2⟩
    · rw [if_neg (by simp [h])]
      cases ha : planActions st with
      | nil => exact absurd ha h2
      | cons a l =>
        intro hc
        rw [List.map_eq_nil_iff] at hc
        have hlen := congrArg List.length hc
        rw [List.enum_length, List.length_nil, List.length_eq_zero, List.flatMap_cons,
          List.append_eq_nil] at hlen
        exact expandAction_ne_nil a (List.map_eq_nil_iff.mp hlen.1)
    · intro t ht
      rw [if_neg (by simp [h])] at ht
      rcases List.mem_map.mp ht with ⟨⟨i, trip⟩, -, rfl⟩
      unfold mkTask
      dsimp only
      split <;> simp

/-- C9 witness: on the empty extraction record the planner emits exactly
the default task, whose steps list is non-empty. -/
theorem c9_witness :
    (plannerRun (readerRun [])).tasks = [defaultTask] ∧ defaultTask.steps ≠ [] :=
  ⟨(c9_planner_tasks (readerRun [])).2.2 (by decide),
   (c9_planner_tasks (readerRun [])).2.1 defaultTask (by decide)⟩

end Bizflow

namespace Bizflow

/-! ## C10: infix decomposition across a non-member separator -/

theorem prefix_append_mid (pat u v : Str) (c : Char) (hc : c ∉ pat)
    (h : pat <+: u ++ c :: v) : pat <+: u := by
  induction u generalizing pat with
  | nil =>
    cases pat with
    | nil => exact List.nil_prefix
    | cons a l =>
      rw [List.nil_append] at h
      have h1 := (List.cons_prefix_cons.mp h).1
      rw [h1] at hc
      exact absurd (List.mem_cons_self c l) hc
  | cons x u ih =>
    cases pat with
    | nil => exact List.nil_prefix
    | cons a l =>
      rw [List.cons_append] at h
      rcases List.cons_prefix_cons.mp h with ⟨h1, htail⟩
      exact List.cons_prefix_cons.mpr
        ⟨h1, ih l (fun hm => hc (List.mem_cons_of_mem _ hm)) htail⟩

theorem infix_append_mid_elim (pat u v : Str) (c : Char) (hc : c ∉ pat)
    (h : pat <:+: u ++ c :: v) : pat <:+: u ∨ pat <:+: v := by
  induction u with
  | nil =>
    rw [List.nil_append] at h
    rcases List.infix_cons_iff.mp h with hp | hi
    · cases pat with
      | nil => exact Or.inl List.nil_infix
      | cons a l =>
        have h1 := (List.cons_prefix_cons.mp hp).1
        rw [h1] at hc
        exact absurd (List.mem_cons_self c l) hc
    · exact Or.inr hi
  | cons x u ih =>
    rw [List.cons_append] at h
    rcases List.infix_cons_iff.mp h with hp | hi
    · rw [← List.cons_append] at hp
      exact Or.inl (prefix_append_mid pat (x :: u) v c hc hp).isInfix
    · rcases ih hi with h1 | h1
      · exact Or.inl (h1.trans (List.suffix_cons x u).isInfix)
      · exact Or.inr h1

theorem minByPos_mem (x : Str × Nat) (l : List (Str × Nat))
    (h : minByPos l = some x) : x ∈ l := by
  cases l with
  | nil => simp [minByPos] at h
  | cons a l =>
    simp only [minByPos, Option.some_inj] at h
    have key : ∀ (xs : List (Str × Nat)) (acc : Str × Nat),
        xs.foldl (fun acc y => if y.2 < acc.2 then y else acc) acc ∈ acc :: xs := by
      intro xs
      induction xs with
      | nil => simp
      | cons z zs ih =>
        intro acc
        rw [List.foldl_cons]
        rcases List.mem_cons.mp (ih (if z.2 < acc.2 then z else acc)) with h1 | h1
        · rw [h1]
          split
          · exact List.mem_cons_of_mem _ (List.mem_cons_self z zs)
          · exact List.mem_cons_self acc _
        · exact List.mem_cons_of_mem _ (List.mem_cons_of_mem _ h1)
    rw [← h]
    exact key l a

theorem extract_trigger_ne_nil_of_marker (marker action : Str)
    (hm : marker ∈ CONDITION_MARKERS) (hinf : marker <:+: action) :
    extract_trigger_phrase action ≠ [] := by
  have hfacts : ∀ m ∈ CONDITION_MARKERS, m ≠ [] ∧ ∀ c ∈ m, isSpace c = false := by decide
  obtain ⟨hmne, hmns⟩ := hfacts marker hm
  have hstrip : marker <:+: pyStrip action := (infix_pyStrip_iff marker action hmne hmns).mpr hinf
  have hclne : pyStrip action ≠ [] := by
    intro hc
    rw [hc] at hstrip
    exact hmne (List.infix_nil.mp hstrip)
  unfold extract_trigger_phrase
  rw [if_neg (by simpa using hclne)]
  unfold triggerCore
  dsimp only
  have hsome : (findSub marker (pyStrip action)).isSome := by
    have := (isInfixB_iff marker (pyStrip action)).mpr hstrip
    rwa [isInfixB] at this
  rcases Option.isSome_iff_exists.mp hsome with ⟨i, hi⟩
  have hmem : (marker, i) ∈ CONDITION_MARKERS.filterMap
      (fun m => (findSub m (pyStrip action)).map fun p => (m, p)) :=
    List.mem_filterMap.mpr ⟨marker, hm, by rw [hi]; rfl⟩
  rcases hmin : minByPos (CONDITION_MARKERS.filterMap
      (fun m => (findSub m (pyStrip action)).map fun p => (m, p))) with - | y
  · exfalso
    cases hl : CONDITION_MARKERS.filterMap
        (fun m => (findSub m (pyStrip action)).map fun p => (m, p)) with
    | nil =>
      rw [hl] at hmem
      simp at hmem
    | cons z zs =>
      rw [hl] at hmin
      simp [minByPos] at hmin
  · dsimp only
    rcases y with ⟨m0, pos0⟩
    have hy := minByPos_mem _ _ hmin
    rcases List.mem_filterMap.mp hy with ⟨m1, hm1, hmap⟩
    rcases Option.map_eq_some'.mp hmap with ⟨p1, -, hpair⟩
    have hm0 : m0 = m1 := by
      have := congrArg Prod.fst hpair
      exact this.symm
    have hm0len : 1 ≤ m0.length := by
      rw [hm0]
      exact List.length_pos.mpr (hfacts m1 hm1).1
    intro hc
    rw [List.take_eq_nil_iff] at hc
    rcases hc with hc | hc
    · revert hc
      split <;> dsimp only <;> omega
    · exact hclne hc
end Bizflow

namespace Bizflow

theorem intercalate_pair (x y : Str) : List.intercalate [' '] [x, y] = x ++ ' ' :: y := by
  simp [List.intercalate, List.intersperse]

theorem taskCombined_mkTask_nil (idx : Nat) (src role : Str) (people : List Person) :
    taskCombined (mkTask idx src role [] people) = "Process request Review input".toList := rfl

theorem taskCombined_mkTask_cons (idx : Nat) (src role : Str) (people : List Person)
    (c : Char) (ta : Str) :
    taskCombined (mkTask idx src role (c :: ta) people) = (c :: ta) ++ ' ' :: (c :: ta) := by
  unfold taskCombined mkTask
  dsimp only
  rw [if_neg (by simp), if_neg (by simp)]
  exact intercalate_pair _ _

/-- Every task the planner builds carries a non-empty trigger whenever its
name or steps mention a conditional marker: the trigger is extracted from
the very task action that forms the name and the single step. -/
theorem planner_trigger_filled (st : ReaderOut) :
    ∀ t ∈ (plannerRun st).tasks, taskRequiresTrigger t = true → t.trigger ≠ [] := by
  intro t ht hreq
  unfold plannerRun at ht
  dsimp only at ht
  by_cases h : (planActions st).isEmpty
  · rw [if_pos h, List.mem_singleton] at ht
    rw [ht] at hreq
    exact absurd hreq (by decide)
  · rw [if_neg h] at ht
    rcases List.mem_map.mp ht with ⟨⟨i, trip⟩, -, rfl⟩
    rcases trip with ⟨src, role, ta⟩
    cases ta with
    | nil =>
      unfold taskRequiresTrigger at hreq
      rw [taskCombined_mkTask_nil] at hreq
      exact absurd hreq (by decide)
    | cons c ta' =>
      unfold taskRequiresTrigger at hreq
      rw [taskCombined_mkTask_cons] at hreq
      rcases (containsAny_iff _ _).mp hreq with ⟨marker, hmm', hmne, hinf⟩
      have hnospace : ' ' ∉ marker := by
        have hall : ∀ m ∈ TRIGGER_MARKERS, ' ' ∉ m := by decide
        exact hall marker hmm'
      have hmarker : marker <:+: c :: ta' := by
        rcases infix_append_mid_elim marker (c :: ta') (c :: ta') ' ' hnospace hinf with
          h1 | h1 <;> exact h1
      have hcm : marker ∈ CONDITION_MARKERS := by
        have hall : ∀ m ∈ TRIGGER_MARKERS, m ∈ CONDITION_MARKERS := by decide
        exact hall marker hmm'
      show (mkTask _ _ _ _ _).trigger ≠ []
      unfold mkTask
      dsimp only
      exact extract_trigger_ne_nil_of_marker marker (c :: ta') hcm hmarker

theorem prefix_append_take (p q r : Str) (h : p <+: q ++ r) :
    p.take q.length = q.take p.length := by
  have hp : p = (q ++ r).take p.length := List.prefix_iff_eq_take.mp h
  have h1 : p.take q.length = ((q ++ r).take p.length).take q.length := by
    conv_lhs => rw [hp]
  rw [List.take_take] at h1
  rw [h1, List.take_append_eq_append_take]
  have hmin : min q.length p.length - q.length = 0 := by omega
  rw [hmin, List.take_zero, List.append_nil]
  exact List.take_eq_take.mpr (by omega)

/-- On planner output the validator never emits a "missing trigger in
..." issue. -/
theorem validator_no_missing_trigger (st : ReaderOut) (itext : Str)
    (acts fo : List Str) (people : List Person) :
    ∀ s ∈ (validatorRun (plannerRun st) itext acts fo people).issues,
      ¬ "missing trigger in ".toList <+: s := by
  intro s hs hpre
  unfold validatorRun at hs
  dsimp only at hs
  simp only [List.mem_append] at hs
  rcases hs with ((((hs | hs) | hs) | hs) | hs) | hs
  · revert hs
    split
    · intro hs
      rw [List.mem_singleton] at hs
      rw [hs] at hpre
      exact absurd hpre (by decide)
    · intro hs
      rcases List.mem_flatMap.mp hs with ⟨t, htmem, hti⟩
      unfold taskIssues at hti
      simp only [List.mem_append] at hti
      rcases hti with (((hti | hti) | hti) | hti) | hti
      · rcases mem_if_singleton _ _ _ hti with ⟨-, hteq⟩
        rw [hteq] at hpre
        exact absurd (prefix_append_take _ _ _ hpre) (by decide)
      · rcases mem_if_singleton _ _ _ hti with ⟨-, hteq⟩
        rw [hteq] at hpre
        exact absurd (prefix_append_take _ _ _ hpre) (by decide)
      · rcases mem_if_singleton _ _ _ hti with ⟨hcond, -⟩
        rw [Bool.and_eq_true] at hcond
        have htr := planner_trigger_filled st t htmem hcond.1
        exact htr (List.isEmpty_iff.mp hcond.2)
      · rcases mem_if_singleton _ _ _ hti with ⟨-, hteq⟩
        rw [hteq] at hpre
        exact absurd (prefix_append_take _ _ _ hpre) (by decide)
      · rcases mem_if_singleton _ _ _ hti with ⟨-, hteq⟩
        rw [hteq] at hpre
        exact absurd hpre (by decide)
  · revert hs
    split
    · intro hs
      rw [List.mem_singleton] at hs
      rw [hs] at hpre
      exact absurd hpre (by decide)
    · intro hs
      rcases List.mem_filterMap.mp hs with ⟨r, -, hr⟩
      revert hr
      split
      · intro hr
        injection hr with hr
        rw [← hr] at hpre
        exact absurd hpre (by decide)
      · intro hr
        exact Option.noConfusion hr
  · rcases mem_if_singleton _ _ _ hs with ⟨-, hteq⟩
    rw [hteq] at hpre
    exact absurd hpre (by decide)
  · rcases mem_if_singleton _ _ _ hs with ⟨-, hteq⟩
    rw [hteq] at hpre
    exact absurd hpre (by decide)
  · rcases mem_if_singleton _ _ _ hs with ⟨-, hteq⟩
    rw [hteq] at hpre
    exact absurd hpre (by decide)
  · rcases mem_if_singleton _ _ _ hs with ⟨-, hteq⟩
    rw [hteq] at hpre
    exact absurd hpre (by decide)

/-- C10 (confirmed).  The validator's structural "missing trigger" check
is unreachable on planner output: every planner task whose name or steps
contain a trigger-marker keyword has a non-empty trigger (both derive
from the same task action), so `ValidatorStage.run` never emits an issue
of the form "missing trigger in {id}" on `PlannerStage.run` output. -/
theorem c10_missing_trigger_unreachable (st : ReaderOut) (itext : Str)
    (acts fo : List Str) (people : List Person) :
    (∀ t ∈ (plannerRun st).tasks, taskRequiresTrigger t = true → t.trigger ≠ []) ∧
    (∀ s ∈ (validatorRun (plannerRun st) itext acts fo people).issues,
      ¬ "missing trigger in ".toList <+: s) :=
  ⟨planner_trigger_filled st, validator_no_missing_trigger st itext acts fo people⟩

/-- C10 witness: the Accounting task built from 承認されたら精算する needs
a trigger, carries one, and the validator raises no missing-trigger issue
for it. -/
theorem c10_witness :
    taskRequiresTrigger conditionalTask = true ∧ conditionalTask.trigger ≠ [] ∧
    "missing trigger in task_2".toList ∉
      (validatorRun (plannerRun conditionalState) "承認されたら精算する".toList
        ["承認されたら精算する".toList] [] []).issues :=
  ⟨by decide,
   (c10_missing_trigger_unreachable conditionalState [] [] [] []).1 conditionalTask
     (by decide) (by decide),
   fun hmem =>
     (c10_missing_trigger_unreachable conditionalState "承認されたら精算する".toList
       ["承認されたら精算する".toList] [] []).2 _ hmem (by decide)⟩

end Bizflow

namespace Bizflow

/-! ## C1 and C2: the retry loop -/

theorem blockingOf_sub_issues (v : ValidatorOut) (h : blockingOf v ≠ []) : v.issues ≠ [] := by
  intro hc
  unfold blockingOf at h
  rw [hc] at h
  exact h rfl

theorem orchStep_cases (maxR : Nat) (text : Str) (st : ReaderOut) (retries : Nat) :
    (∀ p v, orchStep maxR text st retries = .accept p v → blockingOf v = []) ∧
    (∀ p v, orchStep maxR text st retries = .failRes p v →
        blockingOf v ≠ [] ∧ maxR ≤ retries) ∧
    (∀ st' p v, orchStep maxR text st retries = .retryNext st' p v → retries < maxR) := by
  unfold orchStep
  dsimp only
  split_ifs with h1 h2 h3
  · refine ⟨?_, ?_, ?_⟩
    · intro p v heq
      cases heq
      unfold blockingOf
      simp
    · intro p v heq
      cases heq
    · intro st' p v heq
      cases heq
  · refine ⟨?_, ?_, ?_⟩
    · intro p v heq
      cases heq
    · intro p v heq
      cases heq
    · intro st' p v heq
      rw [Bool.and_eq_true, decide_eq_true_eq] at h1
      exact h1.2
  · refine ⟨?_, ?_, ?_⟩
    · intro p v heq
      cases heq
    · intro p v heq
      cases heq
      have hbne : blockingOf (stepValidator text st) ≠ [] := by
        intro hc
        rw [hc] at h3
        simp at h3
      refine ⟨hbne, ?_⟩
      by_contra hlt
      rw [Nat.not_le] at hlt
      apply h1
      rw [Bool.and_eq_true, decide_eq_true_eq]
      refine ⟨?_, hlt⟩
      have hi := blockingOf_sub_issues _ hbne
      simpa using hi
    · intro st' p v heq
      cases heq
  · refine ⟨?_, ?_, ?_⟩
    · intro p v heq
      cases heq
      have hb : (blockingOf (stepValidator text st)).isEmpty = true := by
        revert h3
        cases (blockingOf (stepValidator text st)).isEmpty <;> simp
      exact List.isEmpty_iff.mp hb
    · intro p v heq
      cases heq
    · intro st' p v heq
      cases heq

theorem loopFull_spec (maxR : Nat) (text : Str) :
    ∀ fuel st retries, retries ≤ maxR → retries + fuel = maxR + 1 →
      (∃ st2 p v r, loopFull maxR text fuel st retries = .done st2 p v r ∧
          blockingOf v = []) ∨
      (∃ st2 p v, loopFull maxR text fuel st retries = .failed st2 p v maxR ∧
          blockingOf v ≠ []) := by
  intro fuel
  induction fuel with
  | zero =>
    intro st retries h1 h2
    omega
  | succ f ih =>
    intro st retries h1 h2
    rw [loopFull]
    cases horch : orchStep maxR text st retries with
    | accept p v =>
      exact Or.inl ⟨st, p, v, retries, rfl, (orchStep_cases maxR text st retries).1 p v horch⟩
    | retryNext st' p v =>
      have hlt := (orchStep_cases maxR text st retries).2.2 st' p v horch
      rcases ih st' (retries + 1) (by omega) (by omega) with h | h
      · exact Or.inl h
      · exact Or.inr h
    | failRes p v =>
      have hf := (orchStep_cases maxR text st retries).2.1 p v horch
      have hr : retries = maxR := Nat.le_antisymm h1 hf.2
      rw [hr]
      exact Or.inr ⟨st, p, v, rfl, hf.1⟩

/-- C1 (confirmed).  `Orchestrator.convert` raises exactly when, at the
end of the retry loop (which can only end in failure with the retry
counter at `max_retries`), the validator's issue set still contains an
issue not tagged as a warning; the error carries exactly those blocking
codes, no generator call is made and no definition is produced.
Otherwise the final blocking set is empty and `convert` returns the
(single) generator invocation producing the definition. -/
theorem c1_convert_failure (maxR : Nat) (text : Str) :
    (∃ st p v, loopFull maxR text (maxR + 1) (readerRun text) 0 = .failed st p v maxR ∧
        blockingOf v ≠ [] ∧ convert maxR text = .error (blockingOf v)) ∨
    (∃ st p v r g, loopFull maxR text (maxR + 1) (readerRun text) 0 = .done st p v r ∧
        blockingOf v = [] ∧ convert maxR text = .ok g) := by
  rcases loopFull_spec maxR text (maxR + 1) (readerRun text) 0 (by omega) (by omega) with
    ⟨st2, p, v, r, heq, hb⟩ | ⟨st2, p, v, heq, hb⟩
  · refine Or.inr ⟨st2, p, v, r, ⟨text, st2, p, v⟩, heq, hb, ?_⟩
    unfold convert
    dsimp only
    rw [heq]
  · refine Or.inl ⟨st2, p, v, heq, hb, ?_⟩
    unfold convert
    dsimp only
    rw [heq]

/-- C2 (confirmed).  In the retry loop, a non-empty warnings-only issue
set is accepted (clearing the issues when below the retry cap) as soon as
at least one retry has happened, and triggers a retry when the retry
counter is still 0 — so warnings alone cause at most one retry. -/
theorem c2_warnings_only (maxR : Nat) (text : Str) (st : ReaderOut) (retries : Nat) :
    ((stepValidator text st).issues ≠ [] →
      blockingOf (stepValidator text st) = [] →
      1 ≤ retries →
      orchStep maxR text st retries =
        .accept (plannerRun st)
          (if retries < maxR then { stepValidator text st with issues := [] }
           else stepValidator text st)) ∧
    ((stepValidator text st).issues ≠ [] →
      blockingOf (stepValidator text st) = [] →
      retries = 0 → 0 < maxR →
      orchStep maxR text st retries =
        .retryNext
          { st with
            retry_issues := (stepValidator text st).issues
            force_task_split := st.force_task_split ||
              (stepValidator text st).issues.contains codeCompoundSingleTask
            avoid_non_business := st.avoid_non_business ||
              (stepValidator text st).issues.contains codeNonBusinessTask }
          (plannerRun st) (stepValidator text st)) := by
  constructor
  · intro hne hb hr
    unfold orchStep
    dsimp only
    by_cases hlt : retries < maxR
    · rw [if_pos, if_pos, if_pos hlt]
      · rw [Bool.and_eq_true, Bool.and_eq_true, decide_eq_true_eq]
        exact ⟨⟨by simpa using hne, by simp [hb]⟩, hr⟩
      · rw [Bool.and_eq_true, decide_eq_true_eq]
        exact ⟨by simpa using hne, hlt⟩
    · rw [if_neg, if_neg, if_neg (by omega)]
      · rw [Bool.not_eq_true]
        simp [hb]
      · rw [Bool.and_eq_true, decide_eq_true_eq]
        rintro ⟨-, hc⟩
        exact hlt hc
  · intro hne hb h0 hmax
    subst h0
    unfold orchStep
    dsimp only
    rw [if_pos, if_neg]
    · rw [Bool.and_eq_true, decide_eq_true_eq]
      rintro ⟨-, hc⟩
      omega
    · rw [Bool.and_eq_true, decide_eq_true_eq]
      exact ⟨by simpa using hne, hmax⟩

/-- C2 witness: on the concrete warnings-only state (two Applicant tasks
raising only `role_not_inferred`), the step is accepted with cleared
issues at retry 1 and retried at retry 0. -/
theorem c2_witness :
    orchStep 2 [] warningsOnlyState 1 =
      .accept (plannerRun warningsOnlyState)
        { stepValidator [] warningsOnlyState with issues := [] } ∧
    orchStep 2 [] warningsOnlyState 0 =
      .retryNext
        { warningsOnlyState with
          retry_issues := (stepValidator [] warningsOnlyState).issues
          force_task_split := warningsOnlyState.force_task_split ||
            (stepValidator [] warningsOnlyState).issues.contains codeCompoundSingleTask
          avoid_non_business := warningsOnlyState.avoid_non_business ||
            (stepValidator [] warningsOnlyState).issues.contains codeNonBusinessTask }
        (plannerRun warningsOnlyState) (stepValidator [] warningsOnlyState) := by
  constructor
  · have h := (c2_warnings_only 2 [] warningsOnlyState 1).1 (by decide) (by decide) (by decide)
    rwa [if_pos (by omega)] at h
  · exact (c2_warnings_only 2 [] warningsOnlyState 0).2 (by decide) (by decide) rfl (by omega)

end Bizflow

namespace Bizflow

/-! ## C8: idempotence of the splitter on its own output -/

theorem noTwoSpaces_pair (a b : Char) (l : Str) :
    noTwoSpaces (a :: b :: l) = (!(isSpace a && isSpace b) && noTwoSpaces (b :: l)) := rfl

theorem collapseWs_onlyPlain (s : Str) :
    ∀ c ∈ collapseWs s, isSpace c = true → c = ' ' := by
  induction s using collapseWs.induct with
  | case1 => simp [collapseWs]
  | case2 c hc =>
    intro d hd _
    unfold collapseWs at hd
    rw [if_pos hc] at hd
    simpa using hd
  | case3 c hc =>
    intro d hd hsp
    unfold collapseWs at hd
    rw [if_neg hc] at hd
    rw [List.mem_singleton] at hd
    rw [hd] at hsp
    exact absurd hsp hc
  | case4 a b rest hab ih =>
    intro d hd hsp
    unfold collapseWs at hd
    rw [if_pos hab] at hd
    exact ih d hd hsp
  | case5 a b rest hab ih =>
    intro d hd hsp
    unfold collapseWs at hd
    rw [if_neg hab] at hd
    rcases List.mem_cons.mp hd with h1 | h1
    · by_cases hsa : isSpace a = true
      · rw [h1, if_pos hsa]
      · rw [h1, if_neg hsa] at hsp
        rw [h1, if_neg hsa]
        exact absurd hsp hsa
    · exact ih d h1 hsp

theorem collapseWs_head (b : Char) (rest : Str) (hb : isSpace b = false) :
    (collapseWs (b :: rest)).head? = some b := by
  cases rest with
  | nil => simp [collapseWs, hb]
  | cons c rest' =>
    unfold collapseWs
    rw [if_neg (by simp [hb])]
    simp [hb]

theorem collapseWs_noTwo (s : Str) : noTwoSpaces (collapseWs s) = true := by
  induction s using collapseWs.induct with
  | case1 => simp [collapseWs, noTwoSpaces]
  | case2 c hc =>
    unfold collapseWs
    rw [if_pos hc]
    rfl
  | case3 c hc =>
    unfold collapseWs
    rw [if_neg hc]
    rfl
  | case4 a b rest hab ih =>
    unfold collapseWs
    rw [if_pos hab]
    exact ih
  | case5 a b rest hab ih =>
    unfold collapseWs
    rw [if_neg hab]
    cases hcol : collapseWs (b :: rest) with
    | nil => rfl
    | cons x xs =>
      rw [hcol] at ih
      rw [noTwoSpaces_pair, Bool.and_eq_true]
      refine ⟨?_, ih⟩
      by_cases hsa : isSpace a = true
      · have hsb : isSpace b = false := by
          cases hbb : isSpace b
          · rfl
          · exact absurd (by rw [Bool.and_eq_true]; exact ⟨hsa, hbb⟩) hab
        have hx : x = b := by
          have hh := collapseWs_head b rest hsb
          rw [hcol] at hh
          simpa using hh
        rw [if_pos hsa, hx]
        simp [hsb]
      · rw [Bool.not_eq_true] at hsa
        rw [if_neg (by simp [hsa])]
        simp [hsa]

end Bizflow

namespace Bizflow

theorem noTwoSpaces_tail (x : Char) (l : Str) (h : noTwoSpaces (x :: l) = true) :
    noTwoSpaces l = true := by
  cases l with
  | nil => rfl
  | cons y t =>
    rw [noTwoSpaces_pair, Bool.and_eq_true] at h
    exact h.2

theorem noTwoSpaces_append_left (a b : Str) (h : noTwoSpaces (a ++ b) = true) :
    noTwoSpaces b = true := by
  induction a with
  | nil => simpa using h
  | cons x a ih =>
    rw [List.cons_append] at h
    exact ih (noTwoSpaces_tail x _ h)

theorem noTwoSpaces_append_right (a b : Str) (h : noTwoSpaces (a ++ b) = true) :
    noTwoSpaces a = true := by
  induction a with
  | nil => rfl
  | cons x a ih =>
    cases a with
    | nil => rfl
    | cons y a' =>
      rw [List.cons_append, List.cons_append] at h
      rw [noTwoSpaces_pair, Bool.and_eq_true] at h ⊢
      refine ⟨h.1, ?_⟩
      exact ih (by rw [List.cons_append]; exact h.2)

theorem noTwoSpaces_of_infix (t s : Str) (hinf : t <:+: s)
    (h : noTwoSpaces s = true) : noTwoSpaces t = true := by
  rcases hinf with ⟨u, w, huw⟩
  rw [← huw] at h
  exact noTwoSpaces_append_right t w (noTwoSpaces_append_left u (t ++ w) (by rwa [List.append_assoc] at h))

theorem dropWhile_head_not (l : Str) :
    ∀ c, (l.dropWhile isSpace).head? = some c → isSpace c = false := by
  induction l with
  | nil => intro c hc; simp at hc
  | cons a l ih =>
    intro c hc
    rw [List.dropWhile_cons] at hc
    split at hc
    · exact ih c hc
    · rename_i hns
      rw [List.head?_cons, Option.some_inj] at hc
      rw [← hc]
      simpa using hns

theorem pyStrip_prefix_dropWhile (s : Str) : pyStrip s <+: s.dropWhile isSpace := by
  unfold pyStrip
  rcases List.dropWhile_suffix (l := (s.dropWhile isSpace).reverse) (p := isSpace) with ⟨w, hw⟩
  refine ⟨w.reverse, ?_⟩
  have := congrArg List.reverse hw
  rw [List.reverse_append, List.reverse_reverse] at this
  exact this

theorem pyStrip_frontOk (s : Str) : frontOk (pyStrip s) := by
  intro c hc
  rcases pyStrip_prefix_dropWhile s with ⟨w, hw⟩
  cases hp : pyStrip s with
  | nil => rw [hp] at hc; simp at hc
  | cons x t =>
    rw [hp] at hc hw
    rw [List.head?_cons, Option.some_inj] at hc
    apply dropWhile_head_not s c
    rw [← hw, ← hc]
    simp

theorem pyStrip_backOk (s : Str) : backOk (pyStrip s) := by
  intro c hc
  unfold pyStrip at hc
  rw [List.getLast?_reverse] at hc
  exact dropWhile_head_not (s.dropWhile isSpace).reverse c hc

theorem dropWhile_eq_self_of_frontOk (l : Str) (h : frontOk l) :
    l.dropWhile isSpace = l := by
  cases l with
  | nil => rfl
  | cons c t =>
    rw [List.dropWhile_cons, if_neg]
    rw [h c (by simp)]
    simp

theorem pyStrip_eq_self (p : Str) (hf : frontOk p) (hb : backOk p) : pyStrip p = p := by
  unfold pyStrip
  rw [dropWhile_eq_self_of_frontOk p hf]
  rw [dropWhile_eq_self_of_frontOk p.reverse, List.reverse_reverse]
  intro c hc
  rw [List.head?_reverse] at hc
  exact hb c hc

theorem collapseWs_eq_self (p : Str) (hplain : ∀ c ∈ p, isSpace c = true → c = ' ')
    (hnt : noTwoSpaces p = true) : collapseWs p = p := by
  induction p using collapseWs.induct with
  | case1 => rfl
  | case2 c hc =>
    unfold collapseWs
    rw [if_pos hc]
    rw [hplain c (by simp) hc]
  | case3 c hc =>
    unfold collapseWs
    rw [if_neg hc]
  | case4 a b rest hab ih =>
    rw [Bool.and_eq_true] at hab
    rw [noTwoSpaces_pair, Bool.and_eq_true] at hnt
    rw [hab.1, hab.2] at hnt
    simp at hnt
  | case5 a b rest hab ih =>
    unfold collapseWs
    rw [if_neg hab]
    rw [noTwoSpaces_pair, Bool.and_eq_true] at hnt
    have htail := ih (fun c hc hsp => hplain c (List.mem_cons_of_mem a hc) hsp) hnt.2
    rw [htail]
    by_cases hsa : isSpace a = true
    · rw [if_pos hsa, hplain a (by simp) hsa]
    · rw [if_neg hsa]

end Bizflow

namespace Bizflow

theorem noTwoSpaces_of_nospace (b : Str) (hb : ∀ c ∈ b, isSpace c = false) :
    noTwoSpaces b = true := by
  induction b with
  | nil => rfl
  | cons x b ih =>
    cases b with
    | nil => rfl
    | cons y t =>
      rw [noTwoSpaces_pair, Bool.and_eq_true]
      refine ⟨by rw [hb x (by simp)]; simp, ih fun c hc => hb c (List.mem_cons_of_mem _ hc)⟩

theorem noTwoSpaces_append_nospace (a b : Str) (ha : noTwoSpaces a = true)
    (hb : ∀ c ∈ b, isSpace c = false) : noTwoSpaces (a ++ b) = true := by
  induction a with
  | nil => simpa using noTwoSpaces_of_nospace b hb
  | cons x a ih =>
    cases a with
    | nil =>
      rw [List.singleton_append]
      cases b with
      | nil => rfl
      | cons c b' =>
        rw [noTwoSpaces_pair, Bool.and_eq_true]
        refine ⟨by rw [hb c (by simp)]; simp, ?_⟩
        exact noTwoSpaces_of_nospace (c :: b') hb
    | cons y a' =>
      rw [List.cons_append, List.cons_append, noTwoSpaces_pair, Bool.and_eq_true]
      rw [noTwoSpaces_pair, Bool.and_eq_true] at ha
      refine ⟨ha.1, ?_⟩
      have := ih ha.2
      rwa [List.cons_append] at this

theorem processFragment_props (frag p : Str) (h : processFragment frag = some p) :
    p ≠ [] ∧ (∀ c ∈ p, isSpace c = true → c = ' ') ∧ noTwoSpaces p = true ∧
    frontOk p ∧ backOk p ∧ 2 < (p.filter (· ≠ ' ')).length ∧ p.getLast? ≠ some 'し' := by
  unfold processFragment at h
  by_cases h0 : (pyStrip (collapseWs frag)).isEmpty
  · rw [if_pos h0] at h
    exact Option.noConfusion h
  · rw [if_neg h0] at h
    dsimp only at h
    by_cases h2 : ((pyStrip (collapseWs frag)).filter (· ≠ ' ')).length ≤ 2
    · rw [if_pos h2] at h
      exact Option.noConfusion h
    · rw [if_neg h2] at h
      injection h with hp
      set n := pyStrip (collapseWs frag) with hn
      have hnne : n ≠ [] := fun hc => by rw [hc] at h0; exact h0 rfl
      have hplain : ∀ c ∈ n, isSpace c = true → c = ' ' := fun c hc hs =>
        collapseWs_onlyPlain frag c ((pyStrip_isInfix (collapseWs frag)).subset hc) hs
      have hnt : noTwoSpaces n = true :=
        noTwoSpaces_of_infix n _ (pyStrip_isInfix (collapseWs frag)) (collapseWs_noTwo frag)
      have hfo : frontOk n := pyStrip_frontOk (collapseWs frag)
      have hbo : backOk n := pyStrip_backOk (collapseWs frag)
      have hflt : 2 < (n.filter (· ≠ ' ')).length := Nat.lt_of_not_le h2
      have hlen : 2 < n.length :=
        Nat.lt_of_lt_of_le hflt (List.length_filter_le _ n)
      obtain ⟨c1, m, hn1⟩ := List.exists_cons_of_ne_nil hnne
      have hmne : m ≠ [] := by
        intro hc
        rw [hn1, hc] at hlen
        simp at hlen
      obtain ⟨c2, t, hm⟩ := List.exists_cons_of_ne_nil hmne
      have hn3 : n = c1 :: c2 :: t := by rw [hn1, hm]
      have hdl : n.dropLast = c1 :: (c2 :: t).dropLast := by
        rw [hn3]
        rfl
      by_cases hg : (n.getLast? = some 'し' && decide (2 < n.length)) = true
      · rw [if_pos hg] at hp
        rw [Bool.and_eq_true, decide_eq_true_eq] at hg
        have hnsplit : n.dropLast ++ ['し'] = n := by
          have hgl := List.getLast?_eq_getLast n hnne
          rw [hg.1] at hgl
          have hlast : n.getLast hnne = 'し' := by
            rw [Option.some_inj] at hgl
            exact hgl.symm
          rw [← hlast]
          exact List.dropLast_append_getLast hnne
        have hdsub : ∀ c ∈ n.dropLast, c ∈ n := fun c hc =>
          (List.dropLast_prefix n).subset hc
        have hdnt : noTwoSpaces n.dropLast = true := by
          apply noTwoSpaces_append_right n.dropLast ['し']
          rw [hnsplit]
          exact hnt
        have hsuru : ("する".toList : Str) = ['す', 'る'] := by decide
        rw [hsuru] at hp
        rw [← hp]
        have hfsuru : ∀ c ∈ (['す', 'る'] : Str), isSpace c = false := by decide
        have hsplit2 : n.dropLast ++ ['す', 'る'] = (n.dropLast ++ ['す']) ++ ['る'] := by
          simp
        have hlastp : (n.dropLast ++ ['す', 'る']).getLast? = some 'る' := by
          rw [hsplit2]
          exact List.getLast?_concat _
        have hfiltd : 1 < (n.dropLast.filter (· ≠ ' ')).length := by
          have heq : n.filter (· ≠ ' ') = n.dropLast.filter (· ≠ ' ') ++ ['し'] := by
            conv_lhs => rw [← hnsplit]
            rw [List.filter_append]
            simp
          have h6 := hflt
          rw [heq, List.length_append, List.length_singleton] at h6
          omega
        refine ⟨?_, ?_, ?_, ?_, ?_, ?_, ?_⟩
        · intro hc
          simp at hc
        · intro c hc hs
          rcases List.mem_append.mp hc with hc | hc
          · exact hplain c (hdsub c hc) hs
          · rw [hfsuru c hc] at hs
            exact Bool.noConfusion hs
        · exact noTwoSpaces_append_nospace _ _ hdnt hfsuru
        · intro c hc
          rw [hdl, List.cons_append, List.head?_cons, Option.some_inj] at hc
          rw [← hc]
          exact hfo c1 (by rw [hn3]; rfl)
        · intro c hc
          rw [hlastp, Option.some_inj] at hc
          rw [← hc]
          decide
        · rw [List.filter_append, List.length_append]
          have : ((['す', 'る'] : Str).filter (· ≠ ' ')).length = 2 := by decide
          omega
        · rw [hlastp]
          decide
      · rw [if_neg hg] at hp
        have hglast : n.getLast? ≠ some 'し' := by
          intro hc
          exact hg (by simp only [Bool.and_eq_true, decide_eq_true_eq]; exact ⟨hc, hlen⟩)
        rw [← hp]
        exact ⟨hnne, hplain, hnt, hfo, hbo, hflt, hglast⟩

end Bizflow

namespace Bizflow

theorem isInfixB_cons_false (pat : Str) (c : Char) (rest : Str)
    (h : isInfixB pat (c :: rest) = false) :
    pat.isPrefixOf (c :: rest) = false ∧ isInfixB pat rest = false := by
  rw [isInfixB, findSub_cons] at h
  by_cases hp : pat.isPrefixOf (c :: rest)
  · rw [if_pos hp] at h
    simp at h
  · rw [if_neg hp] at h
    refine ⟨Bool.eq_false_iff.mpr hp, ?_⟩
    rw [isInfixB]
    cases hfs : findSub pat rest with
    | none => rfl
    | some i =>
      rw [hfs] at h
      simp at h

theorem splitOnPatF_single (pat : Str) :
    ∀ fuel s, isInfixB pat s = false → splitOnPatF pat fuel s = [s] := by
  intro fuel
  induction fuel with
  | zero =>
    intro s hs
    cases s <;> rfl
  | succ f ih =>
    intro s hs
    cases s with
    | nil => rfl
    | cons c rest =>
      obtain ⟨hpre, hrest⟩ := isInfixB_cons_false pat c rest hs
      rw [splitOnPatF]
      rw [if_neg (by simp [hpre])]
      rw [ih rest hrest]

theorem splitOnPat_single (pat s : Str) (h : isInfixB pat s = false) :
    splitOnPat pat s = [s] := splitOnPatF_single pat s.length s h

theorem foldl_split_single (seps : List Str) (p : Str)
    (h : ∀ sep ∈ seps, isInfixB sep p = false) :
    seps.foldl (fun frags sep => frags.flatMap (splitOnPat sep)) [p] = [p] := by
  induction seps with
  | nil => rfl
  | cons sep seps ih =>
    rw [List.foldl_cons]
    have h1 : ([p] : List Str).flatMap (splitOnPat sep) = [p] := by
      rw [List.flatMap_cons, List.flatMap_nil, List.append_nil]
      exact splitOnPat_single sep p (h sep (by simp))
    rw [h1]
    exact ih fun s hs => h s (List.mem_cons_of_mem _ hs)

theorem split_actions_single (p : Str) (hne : p ≠ [])
    (hplain : ∀ c ∈ p, isSpace c = true → c = ' ') (hnt : noTwoSpaces p = true)
    (hf : frontOk p) (hb : backOk p) (hcomp : 2 < (p.filter (· ≠ ' ')).length)
    (hlast : p.getLast? ≠ some 'し')
    (hsep : ∀ sep ∈ SEPARATORS, isInfixB sep p = false) :
    split_actions p = [p] := by
  have hmap : (p.map fun c => if c = '　' then ' ' else c) = p := by
    have hcong : ∀ c ∈ p, (if c = '　' then ' ' else c) = c := by
      intro c hc
      split
      · rename_i hc2
        have hsp : isSpace c = true := by rw [hc2]; decide
        have hcc := hplain c hc hsp
        rw [hc2] at hcc
        exact absurd hcc (by decide)
      · rfl
    rw [List.map_congr_left hcong]
    simp
  have hstrip : pyStrip p = p := pyStrip_eq_self p hf hb
  have hcoll : collapseWs p = p := collapseWs_eq_self p hplain hnt
  have hpf : processFragment p = some p := by
    unfold processFragment
    rw [hcoll, hstrip]
    rw [if_neg (by simpa using hne)]
    dsimp only
    rw [if_neg (by omega)]
    have h1 : (decide (p.getLast? = some 'し')) = false := by simp [hlast]
    rw [h1, Bool.false_and, if_neg (by simp)]
  unfold split_actions
  rw [hmap, hstrip]
  rw [if_neg (by simpa using hne)]
  rw [hcoll]
  dsimp only
  rw [foldl_split_single SEPARATORS p hsep]
  rw [List.filterMap_cons]
  rw [hpf]
  simp [dedupeKeepOrder, dedupeAux]

/-- C8 (confirmed).  `TextSegmenter.split` is idempotent on its own
output: any output phrase that contains none of the separators is
returned unchanged as a singleton by a second split. -/
theorem c8_split_idempotent (t p : Str) (hmem : p ∈ split_actions t)
    (hsep : ∀ sep ∈ SEPARATORS, isInfixB sep p = false) :
    split_actions p = [p] := by
  have hfrag : ∃ frag, processFragment frag = some p := by
    unfold split_actions at hmem
    by_cases h : (pyStrip (t.map fun c => if c = '　' then ' ' else c)).isEmpty
    · rw [if_pos h] at hmem
      simp at hmem
    · rw [if_neg h] at hmem
      have h2 := mem_dedupeKeepOrder _ _ hmem
      rcases List.mem_filterMap.mp h2 with ⟨frag, -, hfeq⟩
      exact ⟨frag, hfeq⟩
  rcases hfrag with ⟨frag, hfeq⟩
  obtain ⟨hne, hplain, hnt, hfo, hbo, hcomp, hlast⟩ := processFragment_props frag p hfeq
  exact split_actions_single p hne hplain hnt hfo hbo hcomp hlast hsep

/-- C8 witness: the first phrase split out of a two-sentence input is
separator-free and re-splits to exactly itself. -/
theorem c8_witness :
    "経費を申請する".toList ∈ split_actions "経費を申請する。連絡する".toList ∧
    split_actions "経費を申請する".toList = ["経費を申請する".toList] :=
  ⟨by decide, c8_split_idempotent "経費を申請する。連絡する".toList _ (by decide) (by decide)⟩

end Bizflow
